import Mathlib

/-!
Verification of the expose reflection engine (schema reflection, sub-schema
extraction, endpoint discovery) against its natural-language specification.

Go strings are modelled as lists of characters (`Str`); Go byte-level string
operations on ASCII data coincide with character-level operations. Maps keyed
by strings are modelled as association lists. Errors built with fmt.Errorf
wrapping are modelled as string concatenation on `Except Str`.
-/

abbrev Str := List Char

/-- Shorthand turning a Lean string literal into the character-list model. -/
def str (s : String) : Str := s.data

/-- Reduction lemma for binding a successful Except computation. -/
theorem eok_bind {α β : Type} (a : α) (f : α → Except Str β) :
    (Except.ok a : Except Str α) >>= f = f a := rfl

/-- Reduction lemma for binding a failed Except computation. -/
theorem eerr_bind {α β : Type} (e : Str) (f : α → Except Str β) :
    (Except.error e : Except Str α) >>= f = .error e := rfl

/-- Pure on Except is ok. -/
theorem epure_eq_ok {α : Type} (a : α) : (pure a : Except Str α) = Except.ok a := rfl

/-- Models fmt.Errorf("ctx: %w", err) wrapping: a prefix is prepended on error. -/
def wrapErr {α : Type} (pre : Str) : Except Str α → Except Str α
  | .error e => .error (pre ++ e)
  | .ok a => .ok a

/-! ## Model of Go reflect.Type

Only the kinds the engine manipulates are modelled: primitives and other
non-composite kinds (`prim`, carrying PkgPath and Name), named or anonymous
struct types with their fields, slices and pointers. A field records its
declared name, the value of Tag.Get for the json key (empty when the tag is
absent, exactly as in Go), the Anonymous flag, and its type.
-/

mutual
inductive GoType : Type where
  | prim (pkgPath : Str) (name : Str)
  | structT (pkgPath : Str) (name : Str) (fields : List GoField)
  | sliceT (elem : GoType)
  | ptrT (elem : GoType)
inductive GoField : Type where
  | mk (name : Str) (jsonTag : Str) (anonymous : Bool) (typ : GoType)
end

/-- PkgPath of a type (empty for unnamed and predeclared types). -/
def GoType.pkgPathOf : GoType → Str
  | .prim p _ => p
  | .structT p _ _ => p
  | .sliceT _ => []
  | .ptrT _ => []

/-- Name of a type (empty for unnamed types). -/
def GoType.nameOf : GoType → Str
  | .prim _ n => n
  | .structT _ n _ => n
  | .sliceT _ => []
  | .ptrT _ => []

/-- Last segment of a slash-separated path, used by the Go String method of
named types, which prints the package base name. -/
def lastSegment (p : Str) : Str :=
  ((p.reverse.takeWhile (fun c => c ≠ '/')).reverse)

/-- Models reflect.Type.String: package base name dot type name for named
types, bare name otherwise; slices and pointers print their element. -/
def GoType.stringRepr : GoType → Str
  | .prim p n => if p = [] then n else lastSegment p ++ str "." ++ n
  | .structT p n _ => if p = [] then n else lastSegment p ++ str "." ++ n
  | .sliceT e => str "[]" ++ stringRepr e
  | .ptrT e => str "*" ++ stringRepr e

/-- Character-wise model of strings.ReplaceAll(s, "/", ".") (both patterns are
single characters, so the byte-level replacement is character-wise). -/
def replaceSlashDot (s : Str) : Str :=
  s.map (fun c => if c = '/' then '.' else c)

mutual
/-- Structural equality on types; models comparison of reflect.Type values
(identical Go runtime types are structurally identical descriptors here). -/
def goTypeEq : GoType → GoType → Bool
  | .prim p1 n1, .prim p2 n2 => p1 = p2 && n1 = n2
  | .structT p1 n1 f1, .structT p2 n2 f2 => p1 = p2 && n1 = n2 && goFieldsEq f1 f2
  | .sliceT e1, .sliceT e2 => goTypeEq e1 e2
  | .ptrT e1, .ptrT e2 => goTypeEq e1 e2
  | _, _ => false
termination_by t _ => (sizeOf t, 0)

def goFieldsEq : List GoField → List GoField → Bool
  | [], [] => true
  | f1 :: r1, f2 :: r2 => goFieldEq f1 f2 && goFieldsEq r1 r2
  | _, _ => false
termination_by l _ => (sizeOf l, 0)

def goFieldEq : GoField → GoField → Bool
  | .mk n1 t1 a1 ty1, .mk n2 t2 a2 ty2 => n1 = n2 && t1 = t2 && a1 = a2 && goTypeEq ty1 ty2
termination_by f _ => (sizeOf f, 0)
end

/-! ## Identifier naming (DefaultSchemaIdentifier, ShortSchemaIdentifier) -/

/-- DefaultSchemaIdentifier creates a schema identifier for the provided type
in the form path.to.my.package.name; slices append the List suffix; pointers
are transparent. Translated from the source. -/
def DefaultSchemaIdentifier : GoType → Str
  | .sliceT e => DefaultSchemaIdentifier e ++ str "List"
  | .ptrT e => DefaultSchemaIdentifier e
  | t =>
    if t.pkgPathOf = [] then t.nameOf
    else replaceSlashDot t.pkgPathOf ++ str "." ++ t.nameOf

/-- ShortSchemaIdentifier creates a schema identifier in the form
package.name via reflect.Type.String; slices append the List suffix; pointers
are transparent. Translated from the source. -/
def ShortSchemaIdentifier : GoType → Str
  | .sliceT e => ShortSchemaIdentifier e ++ str "List"
  | .ptrT e => ShortSchemaIdentifier e
  | t => t.stringRepr

/-! ## Required properties (getRequiredProps) -/

/-- Model of strings.Cut(s, sep) for a single-character separator: the part
before the first occurrence, the part after it, and whether it was found. -/
def strCut (s : Str) (c : Char) : Str × Str × Bool :=
  match s with
  | [] => ([], [], false)
  | x :: xs =>
    if x = c then ([], xs, true)
    else
      let r := strCut xs c
      (x :: r.1, r.2.1, r.2.2)

mutual
/-- getRequiredProps iterates over all struct fields of a type and returns all
fields that are not flagged with omitempty; fields without a json tag are
returned as is, fields with one return their alias. Translated from the
source (pointer deref first, nil for non-structs, then the field loop). -/
def getRequiredProps : GoType → List Str
  | .ptrT e => getRequiredProps e
  | .structT _ _ fields => reqFields fields
  | .prim _ _ => []
  | .sliceT _ => []
termination_by t => (sizeOf t, 0)

/-- Loop body of getRequiredProps over the field list. -/
def reqFields : List GoField → List Str
  | [] => []
  | f :: rest => reqField f ++ reqFields rest
termination_by l => (sizeOf l, 0)

/-- Per-field logic of getRequiredProps: anonymous fields recurse; an empty
tag keeps the declared name; an option part equal to omitempty drops the
field; otherwise the alias (or, when empty, the declared name) is kept unless
it is the dash sentinel. Translated branch for branch from the source. -/
def reqField : GoField → List Str
  | .mk fname tag anon typ =>
    if anon then getRequiredProps typ
    else if tag = [] then [fname]
    else
      let cut := strCut tag ','
      if cut.2.1 = str "omitempty" then []
      else
        let nm0 := if cut.2.2 then cut.1 else tag
        let nm1 := if nm0 = [] then fname else nm0
        if nm1 = str "-" then [] else [nm1]
termination_by f => (sizeOf f, 0)
end

/-! ## Specification-level formulation of the required-field analyzer

The refinement target for the required-props claim: the rules of the spec
(embedded fields flatten recursively; untagged fields keep the declared name;
the dash sentinel excludes; an omitempty option part excludes; otherwise the
annotation name, falling back to the declared name) written with takeWhile
and dropWhile instead of the Cut-based parsing of the source.
-/

/-- Alias part of a json tag: everything before the first comma. -/
def tagAlias (tag : Str) : Str := tag.takeWhile (fun c => c ≠ ',')

/-- Option part of a json tag: everything after the first comma (empty when
there is no comma). -/
def tagOptionPart (tag : Str) : Str := (tag.dropWhile (fun c => c ≠ ',')).drop 1

mutual
/-- Required fields as the specification states them, rule by rule. -/
def requiredSpec : GoType → List Str
  | .ptrT e => requiredSpec e
  | .structT _ _ fields => requiredSpecFields fields
  | .prim _ _ => []
  | .sliceT _ => []
termination_by t => (sizeOf t, 0)

/-- Field list part of requiredSpec. -/
def requiredSpecFields : List GoField → List Str
  | [] => []
  | f :: rest => requiredSpecField f ++ requiredSpecFields rest
termination_by l => (sizeOf l, 0)

/-- Rules of the spec for one field, in the priority order of the spec. -/
def requiredSpecField : GoField → List Str
  | .mk fname tag anon typ =>
    if anon then requiredSpec typ
    else if tag = [] then [fname]
    else
      let resolved := if tagAlias tag = [] then fname else tagAlias tag
      if resolved = str "-" then []
      else if tagOptionPart tag = str "omitempty" then []
      else [resolved]
termination_by f => (sizeOf f, 0)
end


/-- strCut agrees with the takeWhile, dropWhile and membership description. -/
theorem strCut_eq (s : Str) (c : Char) :
    strCut s c =
      (s.takeWhile (fun x => x ≠ c), (s.dropWhile (fun x => x ≠ c)).drop 1,
        decide (c ∈ s)) := by
  induction s with
  | nil => simp [strCut]
  | cons x xs ih =>
    by_cases hx : x = c
    · subst hx
      simp [strCut, List.takeWhile, List.dropWhile]
    · simp [strCut, ih, List.takeWhile, List.dropWhile, hx, Ne.symm hx]

mutual

theorem getRequired_eq_spec (t : GoType) : getRequiredProps t = requiredSpec t := by
  match t with
  | .ptrT e => rw [getRequiredProps, requiredSpec]; exact getRequired_eq_spec e
  | .structT p n fields => rw [getRequiredProps, requiredSpec]; exact reqFields_eq_spec fields
  | .prim p n => rw [getRequiredProps, requiredSpec]
  | .sliceT e => rw [getRequiredProps, requiredSpec]
termination_by (sizeOf t, 0)

theorem reqFields_eq_spec (l : List GoField) : reqFields l = requiredSpecFields l := by
  match l with
  | [] => rw [reqFields, requiredSpecFields]
  | f :: rest => rw [reqFields, requiredSpecFields, reqField_eq_spec f, reqFields_eq_spec rest]
termination_by (sizeOf l, 0)

theorem reqField_eq_spec (f : GoField) : reqField f = requiredSpecField f := by
  match f with
  | .mk fname tag anon typ =>
    rw [reqField, requiredSpecField]
    by_cases ha : anon = true
    · rw [if_pos ha, if_pos ha]
      exact getRequired_eq_spec typ
    · rw [if_neg ha, if_neg ha]
      by_cases ht : tag = []
      · rw [if_pos ht, if_pos ht]
      · rw [if_neg ht, if_neg ht]
        have hnm0 : (if (strCut tag ',').2.2 then (strCut tag ',').1 else tag) = tagAlias tag := by
          rw [strCut_eq]
          by_cases hcomma : (',' : Char) ∈ tag
          · simp [hcomma, tagAlias]
          · have htw : tagAlias tag = tag := by
              rw [tagAlias, List.takeWhile_eq_self_iff]
              intro a hmem
              simp only [ne_eq, decide_eq_true_eq]
              intro heq
              exact hcomma (heq ▸ hmem)
            simp [htw, hcomma]
        have hopt : (strCut tag ',').2.1 = tagOptionPart tag := by
          rw [strCut_eq]
          rfl
        simp only [hopt, hnm0]
        by_cases hB : tagOptionPart tag = str "omitempty" <;>
          by_cases hA : (if tagAlias tag = [] then fname else tagAlias tag) = str "-" <;>
            simp [hA, hB]
termination_by (sizeOf f, 1)

end

/-- Character-level splitOn used to state what carrying a json option means:
the comma-separated chunks of the tag after the leading name chunk. -/
def splitOnComma : Str → List Str
  | [] => [[]]
  | x :: xs =>
    let r := splitOnComma xs
    if x = ',' then [] :: r
    else (x :: r.headI) :: r.tail

/-- A tag carries the omitempty flag when one of its option chunks (the
chunks after the first comma) is the word omitempty; this is the Go
convention for json struct tag options. -/
def tagHasOmitempty (tag : Str) : Bool :=
  ((splitOnComma tag).drop 1).contains (str "omitempty")

/-! ## Schema tree model (openapi3.Schema / openapi3.SchemaRef)

A SchemaRef pairs a reference string with an optional schema body (Value),
mirroring openapi3.SchemaRef. Of the schema body the walker and extractor
only touch AllOf, AnyOf, OneOf, Items, Properties, Required and the
Extensions entry for the pending identifier stamp; those are the modelled
fields. Properties is a map in Go with unspecified iteration order; it is
modelled as an association list, fixing one order.
-/

mutual
inductive Schema : Type where
  | mk (extId : Option Str) (allOf : List SchemaRef) (anyOf : List SchemaRef)
       (oneOf : List SchemaRef) (items : Option SchemaRef)
       (props : List (Str × SchemaRef)) (required : List Str)
inductive SchemaRef : Type where
  | mk (ref : Str) (value : Option Schema)
end

instance : Inhabited SchemaRef := ⟨SchemaRef.mk [] none⟩

instance : Inhabited Schema := ⟨Schema.mk none [] [] [] none [] []⟩

instance : Nonempty SchemaRef := ⟨SchemaRef.mk [] none⟩

instance : Nonempty Schema := ⟨Schema.mk none [] [] [] none [] []⟩

/-- Reference string of a SchemaRef. -/
def SchemaRef.refStr : SchemaRef → Str
  | .mk r _ => r

/-- Optional schema body of a SchemaRef. -/
def SchemaRef.valueOf : SchemaRef → Option Schema
  | .mk _ v => v

/-- Extensions entry for the pending identifier of a schema body. -/
def Schema.extIdOf : Schema → Option Str
  | .mk e _ _ _ _ _ _ => e

/-- Required list of a schema body. -/
def Schema.requiredOf : Schema → List Str
  | .mk _ _ _ _ _ _ r => r

/-! ## walkSchema (fx/ctrl.go)

walkSchema traverses a schema depth first: allOf members, anyOf members,
oneOf members, the items schema, each property, then the node itself, and
passes the node to the visitor; a visitor result replaces the node. Children
without a schema body are skipped. Errors are wrapped with the positional
context of the source: the allOf prefix (also used, verbatim from the
source, for the anyOf and oneOf loops), the items prefix, and the prop
prefix with the property name. Go mutates in place; the model returns the
rewritten node and threads the visitor state explicitly.
-/

mutual
def walkSchema {σ : Type} (v : SchemaRef → σ → Except Str (Option SchemaRef × σ)) :
    SchemaRef → σ → Except Str (SchemaRef × σ)
  | .mk ref none, st => .ok (.mk ref none, st)
  | .mk ref (some s), st => do
    let (s2, st2) ← walkVal v s st
    let r2 := SchemaRef.mk ref (some s2)
    let (rep, st3) ← v r2 st2
    match rep with
    | none => pure (r2, st3)
    | some rr => pure (rr, st3)
termination_by r _ => (sizeOf r, 0)

def walkVal {σ : Type} (v : SchemaRef → σ → Except Str (Option SchemaRef × σ)) :
    Schema → σ → Except Str (Schema × σ)
  | .mk extId allOf anyOf oneOf items props req, st => do
    let (allOf2, st1) ← walkRefList v allOf st
    let (anyOf2, st2) ← walkRefList v anyOf st1
    let (oneOf2, st3) ← walkRefList v oneOf st2
    let (items2, st4) ← walkItems v items st3
    let (props2, st5) ← walkPropList v props st4
    pure (Schema.mk extId allOf2 anyOf2 oneOf2 items2 props2 req, st5)
termination_by s _ => (sizeOf s, 0)

def walkItems {σ : Type} (v : SchemaRef → σ → Except Str (Option SchemaRef × σ)) :
    Option SchemaRef → σ → Except Str (Option SchemaRef × σ)
  | none, st => .ok (none, st)
  | some it, st => do
    let (it2, st2) ← wrapErr (str "items: ") (walkSchema v it st)
    pure (some it2, st2)
termination_by o _ => (sizeOf o, 0)

def walkRefList {σ : Type} (v : SchemaRef → σ → Except Str (Option SchemaRef × σ)) :
    List SchemaRef → σ → Except Str (List SchemaRef × σ)
  | [], st => .ok ([], st)
  | r :: rest, st => do
    let (r2, st2) ← walkRefEntry v r st
    let (rest2, st3) ← walkRefList v rest st2
    pure (r2 :: rest2, st3)
termination_by l _ => (sizeOf l, 0)

def walkRefEntry {σ : Type} (v : SchemaRef → σ → Except Str (Option SchemaRef × σ)) :
    SchemaRef → σ → Except Str (SchemaRef × σ)
  | .mk r none, st => .ok (.mk r none, st)
  | .mk r (some s), st => wrapErr (str "allOf: ") (walkSchema v (.mk r (some s)) st)
termination_by r _ => (sizeOf r, 1)

def walkPropList {σ : Type} (v : SchemaRef → σ → Except Str (Option SchemaRef × σ)) :
    List (Str × SchemaRef) → σ → Except Str (List (Str × SchemaRef) × σ)
  | [], st => .ok ([], st)
  | (k, r) :: rest, st => do
    let (r2, st2) ← walkPropEntry v k r st
    let (rest2, st3) ← walkPropList v rest st2
    pure ((k, r2) :: rest2, st3)
termination_by l _ => (sizeOf l, 0)

def walkPropEntry {σ : Type} (v : SchemaRef → σ → Except Str (Option SchemaRef × σ))
    (k : Str) : SchemaRef → σ → Except Str (SchemaRef × σ)
  | .mk r none, st => .ok (.mk r none, st)
  | .mk r (some s), st => wrapErr (str "prop " ++ k ++ str ": ") (walkSchema v (.mk r (some s)) st)
termination_by r _ => (sizeOf r, 1)
end

/-! ## Specification-level postorder

The visit order the specification describes: children before parent, allOf
then anyOf then oneOf members, then the items schema, then each property,
then the node itself; nodes without a schema body do not appear.
-/

mutual
def specPostorder : SchemaRef → List SchemaRef
  | .mk _ none => []
  | .mk r (some s) => specPostVal s ++ [.mk r (some s)]
termination_by r => (sizeOf r, 0)

def specPostVal : Schema → List SchemaRef
  | .mk _ allOf anyOf oneOf items props _ =>
    postL allOf ++ postL anyOf ++ postL oneOf ++ postItems items ++ postP props
termination_by s => (sizeOf s, 0)

def postItems : Option SchemaRef → List SchemaRef
  | none => []
  | some it => specPostorder it
termination_by o => (sizeOf o, 0)

def postL : List SchemaRef → List SchemaRef
  | [] => []
  | r :: rest => specPostorder r ++ postL rest
termination_by l => (sizeOf l, 0)

def postP : List (Str × SchemaRef) → List SchemaRef
  | [] => []
  | (_, r) :: rest => specPostorder r ++ postP rest
termination_by l => (sizeOf l, 0)
end

/-- Visitor that records every visited node in order and never fails nor
replaces anything. -/
def collectV : SchemaRef → List SchemaRef → Except Str (Option SchemaRef × List SchemaRef)
  | r, st => .ok (none, st ++ [r])

mutual

theorem walkCollect (r : SchemaRef) (st : List SchemaRef) :
    walkSchema collectV r st = .ok (r, st ++ specPostorder r) := by
  match r with
  | .mk ref none => rw [walkSchema]; simp [specPostorder]
  | .mk ref (some s) =>
    rw [walkSchema, walkValCollect s st]
    simp only [eok_bind]
    simp [collectV, eok_bind, epure_eq_ok, specPostorder]
termination_by (sizeOf r, 0)

theorem walkValCollect (s : Schema) (st : List SchemaRef) :
    walkVal collectV s st = .ok (s, st ++ specPostVal s) := by
  match s with
  | .mk extId allOf anyOf oneOf items props req =>
    rw [walkVal, walkLCollect allOf st]
    simp only [eok_bind]
    rw [walkLCollect anyOf]
    simp only [eok_bind]
    rw [walkLCollect oneOf]
    simp only [eok_bind]
    rw [walkItemsCollect items]
    simp only [eok_bind]
    rw [walkPCollect props]
    rw [specPostVal]
    simp [eok_bind, epure_eq_ok, List.append_assoc]
termination_by (sizeOf s, 0)

theorem walkItemsCollect (o : Option SchemaRef) (st : List SchemaRef) :
    walkItems collectV o st = .ok (o, st ++ postItems o) := by
  match o with
  | none => rw [walkItems]; simp [postItems]
  | some it =>
    rw [walkItems, walkCollect it st]
    simp [wrapErr, eok_bind, epure_eq_ok, postItems]
termination_by (sizeOf o, 0)

theorem walkLCollect (l : List SchemaRef) (st : List SchemaRef) :
    walkRefList collectV l st = .ok (l, st ++ postL l) := by
  match l with
  | [] => rw [walkRefList]; simp [postL]
  | r :: rest =>
    rw [walkRefList, walkEntryCollect r st]
    simp only [eok_bind]
    rw [walkLCollect rest]
    simp [eok_bind, epure_eq_ok, postL]
termination_by (sizeOf l, 0)

theorem walkEntryCollect (r : SchemaRef) (st : List SchemaRef) :
    walkRefEntry collectV r st = .ok (r, st ++ specPostorder r) := by
  match r with
  | .mk rr none => rw [walkRefEntry]; simp [specPostorder]
  | .mk rr (some s) =>
    rw [walkRefEntry, walkCollect (.mk rr (some s)) st]
    simp [wrapErr]
termination_by (sizeOf r, 1)

theorem walkPCollect (l : List (Str × SchemaRef)) (st : List SchemaRef) :
    walkPropList collectV l st = .ok (l, st ++ postP l) := by
  match l with
  | [] => rw [walkPropList]; simp [postP]
  | (k, r) :: rest =>
    rw [walkPropList, walkPEntryCollect k r st]
    simp only [eok_bind]
    rw [walkPCollect rest]
    simp [eok_bind, epure_eq_ok, postP]
termination_by (sizeOf l, 0)

theorem walkPEntryCollect (k : Str) (r : SchemaRef) (st : List SchemaRef) :
    walkPropEntry collectV k r st = .ok (r, st ++ specPostorder r) := by
  match r with
  | .mk rr none => rw [walkPropEntry]; simp [specPostorder]
  | .mk rr (some s) =>
    rw [walkPropEntry, walkCollect (.mk rr (some s)) st]
    simp [wrapErr]
termination_by (sizeOf r, 1)

end

/-! ## Error shape of walkSchema -/

inductive ECtx : Type where
  | allOfC : ECtx
  | itemsC : ECtx
  | propC (k : Str) : ECtx

/-- Positional context wrapping as the source performs it. -/
def wrapCtx : ECtx → Str → Str
  | .allOfC, e => str "allOf: " ++ e
  | .itemsC, e => str "items: " ++ e
  | .propC k, e => str "prop " ++ k ++ str ": " ++ e

/-- An error string is a visitor error wrapped in a stack of positional
contexts drawn from the allOf, items and prop prefixes. -/
def WrappedVisitorErr {σ : Type} (v : SchemaRef → σ → Except Str (Option SchemaRef × σ))
    (e : Str) : Prop :=
  ∃ cs : List ECtx, ∃ base : Str, ∃ r : SchemaRef, ∃ st : σ,
    e = cs.foldr wrapCtx base ∧ v r st = .error base

theorem wrapErr_error {α : Type} (pre : Str) (x : Except Str α) (e : Str)
    (h : wrapErr pre x = .error e) : ∃ e0, x = .error e0 ∧ e = pre ++ e0 := by
  cases x with
  | error e0 => exact ⟨e0, rfl, by simpa [wrapErr] using h.symm⟩
  | ok a => simp [wrapErr] at h

mutual

theorem walkErrShape {σ : Type} (v : SchemaRef → σ → Except Str (Option SchemaRef × σ))
    (r : SchemaRef) (st : σ) (e : Str)
    (h : walkSchema v r st = .error e) : WrappedVisitorErr v e := by
  match r with
  | .mk ref none => rw [walkSchema] at h; cases h
  | .mk ref (some s) =>
    rw [walkSchema] at h
    cases hw : walkVal v s st with
    | error e1 =>
      rw [hw] at h
      simp only [eerr_bind] at h
      cases h
      exact walkValErrShape v s st _ hw
    | ok p =>
      obtain ⟨s2, st2⟩ := p
      rw [hw] at h
      simp only [eok_bind] at h
      cases hv : v (SchemaRef.mk ref (some s2)) st2 with
      | error e2 =>
        rw [hv] at h
        simp only [eerr_bind] at h
        cases h
        exact ⟨[], _, SchemaRef.mk ref (some s2), st2, rfl, hv⟩
      | ok q =>
        obtain ⟨rep, st3⟩ := q
        rw [hv] at h
        simp only [eok_bind] at h
        cases rep <;> simp [epure_eq_ok] at h
termination_by (sizeOf r, 0)

theorem walkValErrShape {σ : Type} (v : SchemaRef → σ → Except Str (Option SchemaRef × σ))
    (s : Schema) (st : σ) (e : Str)
    (h : walkVal v s st = .error e) : WrappedVisitorErr v e := by
  match s with
  | .mk extId allOf anyOf oneOf items props req =>
    rw [walkVal] at h
    cases h1 : walkRefList v allOf st with
    | error e1 =>
      rw [h1] at h; simp only [eerr_bind] at h; cases h
      exact walkLErrShape v allOf st _ h1
    | ok p1 =>
      obtain ⟨allOf2, st1⟩ := p1
      rw [h1] at h; simp only [eok_bind] at h
      cases h2 : walkRefList v anyOf st1 with
      | error e2 =>
        rw [h2] at h; simp only [eerr_bind] at h; cases h
        exact walkLErrShape v anyOf st1 _ h2
      | ok p2 =>
        obtain ⟨anyOf2, st2⟩ := p2
        rw [h2] at h; simp only [eok_bind] at h
        cases h3 : walkRefList v oneOf st2 with
        | error e3 =>
          rw [h3] at h; simp only [eerr_bind] at h; cases h
          exact walkLErrShape v oneOf st2 _ h3
        | ok p3 =>
          obtain ⟨oneOf2, st3⟩ := p3
          rw [h3] at h; simp only [eok_bind] at h
          cases h4 : walkItems v items st3 with
          | error e4 =>
            rw [h4] at h; simp only [eerr_bind] at h; cases h
            exact walkItemsErrShape v items st3 _ h4
          | ok p4 =>
            obtain ⟨items2, st4⟩ := p4
            rw [h4] at h; simp only [eok_bind] at h
            cases h5 : walkPropList v props st4 with
            | error e5 =>
              rw [h5] at h; simp only [eerr_bind] at h; cases h
              exact walkPErrShape v props st4 _ h5
            | ok p5 =>
              obtain ⟨props2, st5⟩ := p5
              rw [h5] at h; simp only [eok_bind, epure_eq_ok] at h
              cases h
termination_by (sizeOf s, 0)

theorem walkItemsErrShape {σ : Type} (v : SchemaRef → σ → Except Str (Option SchemaRef × σ))
    (o : Option SchemaRef) (st : σ) (e : Str)
    (h : walkItems v o st = .error e) : WrappedVisitorErr v e := by
  match o with
  | none => rw [walkItems] at h; cases h
  | some it =>
    rw [walkItems] at h
    cases hw : wrapErr (str "items: ") (walkSchema v it st) with
    | error e1 =>
      rw [hw] at h; simp only [eerr_bind] at h; cases h
      obtain ⟨e0, hx, rfl⟩ := wrapErr_error _ _ _ hw
      obtain ⟨cs, base, r0, st0, rfl, hv⟩ := walkErrShape v it st e0 hx
      exact ⟨.itemsC :: cs, base, r0, st0, by simp [wrapCtx], hv⟩
    | ok p =>
      obtain ⟨it2, st2⟩ := p
      rw [hw] at h; simp only [eok_bind, epure_eq_ok] at h
      cases h
termination_by (sizeOf o, 0)

theorem walkLErrShape {σ : Type} (v : SchemaRef → σ → Except Str (Option SchemaRef × σ))
    (l : List SchemaRef) (st : σ) (e : Str)
    (h : walkRefList v l st = .error e) : WrappedVisitorErr v e := by
  match l with
  | [] => rw [walkRefList] at h; cases h
  | r :: rest =>
    rw [walkRefList] at h
    cases h1 : walkRefEntry v r st with
    | error e1 =>
      rw [h1] at h; simp only [eerr_bind] at h; cases h
      exact walkEntryErrShape v r st _ h1
    | ok p =>
      obtain ⟨r2, st2⟩ := p
      rw [h1] at h; simp only [eok_bind] at h
      cases h2 : walkRefList v rest st2 with
      | error e2 =>
        rw [h2] at h; simp only [eerr_bind] at h; cases h
        exact walkLErrShape v rest st2 _ h2
      | ok p2 =>
        obtain ⟨rest2, st3⟩ := p2
        rw [h2] at h; simp only [eok_bind, epure_eq_ok] at h
        cases h
termination_by (sizeOf l, 0)

theorem walkEntryErrShape {σ : Type} (v : SchemaRef → σ → Except Str (Option SchemaRef × σ))
    (r : SchemaRef) (st : σ) (e : Str)
    (h : walkRefEntry v r st = .error e) : WrappedVisitorErr v e := by
  match r with
  | .mk rr none => rw [walkRefEntry] at h; cases h
  | .mk rr (some s) =>
    rw [walkRefEntry] at h
    obtain ⟨e0, hx, rfl⟩ := wrapErr_error _ _ _ h
    obtain ⟨cs, base, r0, st0, rfl, hv⟩ := walkErrShape v (.mk rr (some s)) st e0 hx
    exact ⟨.allOfC :: cs, base, r0, st0, by simp [wrapCtx], hv⟩
termination_by (sizeOf r, 1)

theorem walkPErrShape {σ : Type} (v : SchemaRef → σ → Except Str (Option SchemaRef × σ))
    (l : List (Str × SchemaRef)) (st : σ) (e : Str)
    (h : walkPropList v l st = .error e) : WrappedVisitorErr v e := by
  match l with
  | [] => rw [walkPropList] at h; cases h
  | (k, r) :: rest =>
    rw [walkPropList] at h
    cases h1 : walkPropEntry v k r st with
    | error e1 =>
      rw [h1] at h; simp only [eerr_bind] at h; cases h
      exact walkPEntryErrShape v k r st _ h1
    | ok p =>
      obtain ⟨r2, st2⟩ := p
      rw [h1] at h; simp only [eok_bind] at h
      cases h2 : walkPropList v rest st2 with
      | error e2 =>
        rw [h2] at h; simp only [eerr_bind] at h; cases h
        exact walkPErrShape v rest st2 _ h2
      | ok p2 =>
        obtain ⟨rest2, st3⟩ := p2
        rw [h2] at h; simp only [eok_bind, epure_eq_ok] at h
        cases h
termination_by (sizeOf l, 0)

theorem walkPEntryErrShape {σ : Type} (v : SchemaRef → σ → Except Str (Option SchemaRef × σ))
    (k : Str) (r : SchemaRef) (st : σ) (e : Str)
    (h : walkPropEntry v k r st = .error e) : WrappedVisitorErr v e := by
  match r with
  | .mk rr none => rw [walkPropEntry] at h; cases h
  | .mk rr (some s) =>
    rw [walkPropEntry] at h
    obtain ⟨e0, hx, rfl⟩ := wrapErr_error _ _ _ h
    obtain ⟨cs, base, r0, st0, rfl, hv⟩ := walkErrShape v (.mk rr (some s)) st e0 hx
    exact ⟨.propC k :: cs, base, r0, st0, by simp [wrapCtx], hv⟩
termination_by (sizeOf r, 1)

end

/-! ## Schema table and the sub-schema extractor (extractSubSchemas) -/

/-- Mapping from identifier to schema reference; models openapi3.Schemas,
a Go map keyed by identifier strings, as an association list. -/
abbrev SchemaTable := List (Str × SchemaRef)

/-- Membership test for an identifier key. -/
def tcontains (tbl : SchemaTable) (k : Str) : Bool := tbl.any (fun p => p.1 = k)

/-- Map update: overwrite an existing entry or append a new one, modelling
assignment to a Go map key. -/
def tset : SchemaTable → Str → SchemaRef → SchemaTable
  | [], k, v => [(k, v)]
  | (k2, v2) :: rest, k, v =>
    if k2 = k then (k, v) :: rest else (k2, v2) :: tset rest k v

/-- Number of entries stored under a key. -/
def tcount (tbl : SchemaTable) (k : Str) : Nat :=
  (tbl.filter (fun p => p.1 = k)).length

/-- The reference prefix of the components/schemas section. -/
def refPre : Str := str "#/components/schemas/"

/-- Models strings.TrimPrefix(s, "#"): one leading hash is removed. -/
def trimHash : Str → Str
  | '#' :: r => r
  | s => s

/-- extractSubSchemas creates a visitor that moves the visited schema into
the provided table: nodes without a schema body or without a pending
identifier stamp are left alone; a stamped node whose identifier is already
a key of the table is replaced by a reference to the existing entry; an
unknown identifier registers the node and replaces it by a reference.
Translated from the source. -/
def extractSubSchemas : SchemaRef → SchemaTable → Except Str (Option SchemaRef × SchemaTable) :=
  fun r tbl =>
    match r.valueOf with
    | none => .ok (none, tbl)
    | some s =>
      match s.extIdOf with
      | none => .ok (none, tbl)
      | some idAny =>
        let id := trimHash idAny
        if tcontains tbl id then .ok (some (.mk (refPre ++ id) none), tbl)
        else .ok (some (.mk (refPre ++ id) none), tset tbl id r)

/-! ## Stamp freedom after extraction -/

mutual
/-- No node with a schema body in this tree carries a pending identifier. -/
def noStampsR : SchemaRef → Bool
  | .mk _ none => true
  | .mk _ (some s) => noStampsS s
termination_by r => (sizeOf r, 0)

def noStampsS : Schema → Bool
  | .mk extId a b c it pr _ =>
    extId.isNone && noStampsL a && noStampsL b && noStampsL c && noStampsO it && noStampsP pr
termination_by s => (sizeOf s, 0)

/-- Stamp freedom of all children of a schema body, its own stamp aside. -/
def noStampsKids : Schema → Bool
  | .mk _ a b c it pr _ =>
    noStampsL a && noStampsL b && noStampsL c && noStampsO it && noStampsP pr

def noStampsO : Option SchemaRef → Bool
  | none => true
  | some r => noStampsR r
termination_by o => (sizeOf o, 0)

def noStampsL : List SchemaRef → Bool
  | [] => true
  | r :: rest => noStampsR r && noStampsL rest
termination_by l => (sizeOf l, 0)

def noStampsP : List (Str × SchemaRef) → Bool
  | [] => true
  | (_, r) :: rest => noStampsR r && noStampsP rest
termination_by l => (sizeOf l, 0)
end

mutual

theorem extractWalkOk (r : SchemaRef) (tbl : SchemaTable) :
    ∃ p : SchemaRef × SchemaTable,
      walkSchema extractSubSchemas r tbl = .ok p ∧ noStampsR p.1 = true := by
  match r with
  | .mk ref none =>
    refine ⟨(.mk ref none, tbl), ?_, by rw [noStampsR]⟩
    rw [walkSchema]
  | .mk ref (some s) =>
    obtain ⟨⟨s2, tbl2⟩, hw, hs⟩ := extractValOk s tbl
    cases hid : s2.extIdOf with
    | none =>
      refine ⟨(.mk ref (some s2), tbl2), ?_, ?_⟩
      · rw [walkSchema, hw]
        simp only [eok_bind]
        rw [extractSubSchemas]
        simp only [SchemaRef.valueOf, hid, epure_eq_ok, eok_bind]
      · rw [noStampsR]
        cases s2 with
        | mk e2 a b c it pr rq =>
          simp only [Schema.extIdOf] at hid
          subst hid
          rw [noStampsS]
          rw [noStampsKids] at hs
          simpa using hs
    | some idAny =>
      by_cases hmem : tcontains tbl2 (trimHash idAny) = true
      · refine ⟨(.mk (refPre ++ trimHash idAny) none, tbl2), ?_, by rw [noStampsR]⟩
        rw [walkSchema, hw]
        simp only [eok_bind]
        rw [extractSubSchemas]
        simp only [SchemaRef.valueOf, hid, hmem, if_pos, epure_eq_ok, eok_bind]
      · refine ⟨(.mk (refPre ++ trimHash idAny) none,
          tset tbl2 (trimHash idAny) (.mk ref (some s2))), ?_, by rw [noStampsR]⟩
        rw [walkSchema, hw]
        simp only [eok_bind]
        rw [extractSubSchemas]
        simp only [SchemaRef.valueOf, hid, epure_eq_ok]
        rw [if_neg (by simp [hmem])]
        simp only [eok_bind]
termination_by (sizeOf r, 0)

theorem extractValOk (s : Schema) (tbl : SchemaTable) :
    ∃ p : Schema × SchemaTable,
      walkVal extractSubSchemas s tbl = .ok p ∧ noStampsKids p.1 = true := by
  match s with
  | .mk extId allOf anyOf oneOf items props req =>
    obtain ⟨⟨a2, t1⟩, h1, g1⟩ := extractListOk allOf tbl
    obtain ⟨⟨b2, t2⟩, h2, g2⟩ := extractListOk anyOf t1
    obtain ⟨⟨c2, t3⟩, h3, g3⟩ := extractListOk oneOf t2
    obtain ⟨⟨it2, t4⟩, h4, g4⟩ := extractItemsOk items t3
    obtain ⟨⟨pr2, t5⟩, h5, g5⟩ := extractPropsOk props t4
    refine ⟨(Schema.mk extId a2 b2 c2 it2 pr2 req, t5), ?_, ?_⟩
    · rw [walkVal, h1]
      simp only [eok_bind]
      rw [h2]
      simp only [eok_bind]
      rw [h3]
      simp only [eok_bind]
      rw [h4]
      simp only [eok_bind]
      rw [h5]
      simp only [eok_bind, epure_eq_ok]
    · rw [noStampsKids]
      simp [g1, g2, g3, g4, g5]
termination_by (sizeOf s, 0)

theorem extractItemsOk (o : Option SchemaRef) (tbl : SchemaTable) :
    ∃ p : Option SchemaRef × SchemaTable,
      walkItems extractSubSchemas o tbl = .ok p ∧ noStampsO p.1 = true := by
  match o with
  | none =>
    refine ⟨(none, tbl), ?_, by rw [noStampsO]⟩
    rw [walkItems]
  | some it =>
    obtain ⟨⟨it2, t2⟩, hw, hs⟩ := extractWalkOk it tbl
    refine ⟨(some it2, t2), ?_, ?_⟩
    · rw [walkItems, hw]
      simp [wrapErr, eok_bind, epure_eq_ok]
    · rw [noStampsO]; exact hs
termination_by (sizeOf o, 0)

theorem extractListOk (l : List SchemaRef) (tbl : SchemaTable) :
    ∃ p : List SchemaRef × SchemaTable,
      walkRefList extractSubSchemas l tbl = .ok p ∧ noStampsL p.1 = true := by
  match l with
  | [] =>
    refine ⟨([], tbl), ?_, by rw [noStampsL]⟩
    rw [walkRefList]
  | r :: rest =>
    obtain ⟨⟨r2, t2⟩, h1, g1⟩ := extractEntryOk r tbl
    obtain ⟨⟨rest2, t3⟩, h2, g2⟩ := extractListOk rest t2
    refine ⟨(r2 :: rest2, t3), ?_, ?_⟩
    · rw [walkRefList, h1]
      simp only [eok_bind]
      rw [h2]
      simp only [eok_bind, epure_eq_ok]
    · rw [noStampsL]; simp [g1, g2]
termination_by (sizeOf l, 0)

theorem extractEntryOk (r : SchemaRef) (tbl : SchemaTable) :
    ∃ p : SchemaRef × SchemaTable,
      walkRefEntry extractSubSchemas r tbl = .ok p ∧ noStampsR p.1 = true := by
  match r with
  | .mk rr none =>
    refine ⟨(.mk rr none, tbl), ?_, by rw [noStampsR]⟩
    rw [walkRefEntry]
  | .mk rr (some s) =>
    obtain ⟨⟨r2, t2⟩, hw, hs⟩ := extractWalkOk (.mk rr (some s)) tbl
    refine ⟨(r2, t2), ?_, hs⟩
    rw [walkRefEntry, hw]
    simp [wrapErr]
termination_by (sizeOf r, 1)

theorem extractPropsOk (l : List (Str × SchemaRef)) (tbl : SchemaTable) :
    ∃ p : List (Str × SchemaRef) × SchemaTable,
      walkPropList extractSubSchemas l tbl = .ok p ∧ noStampsP p.1 = true := by
  match l with
  | [] =>
    refine ⟨([], tbl), ?_, by rw [noStampsP]⟩
    rw [walkPropList]
  | (k, r) :: rest =>
    obtain ⟨⟨r2, t2⟩, h1, g1⟩ := extractPropEntryOk k r tbl
    obtain ⟨⟨rest2, t3⟩, h2, g2⟩ := extractPropsOk rest t2
    refine ⟨((k, r2) :: rest2, t3), ?_, ?_⟩
    · rw [walkPropList, h1]
      simp only [eok_bind]
      rw [h2]
      simp only [eok_bind, epure_eq_ok]
    · rw [noStampsP]; simp [g1, g2]
termination_by (sizeOf l, 0)

theorem extractPropEntryOk (k : Str) (r : SchemaRef) (tbl : SchemaTable) :
    ∃ p : SchemaRef × SchemaTable,
      walkPropEntry extractSubSchemas k r tbl = .ok p ∧ noStampsR p.1 = true := by
  match r with
  | .mk rr none =>
    refine ⟨(.mk rr none, tbl), ?_, by rw [noStampsR]⟩
    rw [walkPropEntry]
  | .mk rr (some s) =>
    obtain ⟨⟨r2, t2⟩, hw, hs⟩ := extractWalkOk (.mk rr (some s)) tbl
    refine ⟨(r2, t2), ?_, hs⟩
    rw [walkPropEntry, hw]
    simp [wrapErr]
termination_by (sizeOf r, 1)

end

/-! ## Customizer pipeline and reflectSchema

The generator from the external openapi3gen dependency is not code of this
repository; it is modelled as an opaque parameter `gen` receiving the
customizer flow built by reflectSchema and returning the built reference,
the possibly-updated table, and the number of times it invoked the flow.
Likewise the dynamic SchemaProvider dispatch of reflect is modelled by the
`provider` lookup parameter.
-/

/-- SchemaCustomizer: field name, type, struct tag, schema in, and either an
error or a stop flag with the mutated schema. -/
abbrev SchemaCustomizer := Str → GoType → Str → Schema → Except Str (Bool × Schema)

/-- Loop of newCustomizerFlow: run pipes in order until an error, a stop, or
the end of the list. -/
def flowGo : List SchemaCustomizer → Str → GoType → Str → Schema → Except Str Schema
  | [], _, _, _, schema => .ok schema
  | p :: rest, name, t, tag, schema =>
    match p name t tag schema with
    | .error e => .error e
    | .ok (true, s2) => .ok s2
    | .ok (false, s2) => flowGo rest name t tag s2

/-- newCustomizerFlow iterates over all provided pipes until an error is
returned, a pipe stops, or all pipes have run. Translated from the source. -/
def newCustomizerFlow (pipes : List SchemaCustomizer) :
    Str → GoType → Str → Schema → Except Str Schema :=
  fun name t tag schema => flowGo pipes name t tag schema

/-- Replace the pending identifier stamp of a schema body. -/
def Schema.withExtId (s : Schema) (id : Str) : Schema :=
  match s with
  | .mk _ a b c it pr rq => .mk (some id) a b c it pr rq

/-- Append names to the required list of a schema body. -/
def Schema.appendRequired (s : Schema) (more : List Str) : Schema :=
  match s with
  | .mk e a b c it pr rq => .mk e a b c it pr (rq ++ more)

/-- Struct kind test. -/
def isStructKind : GoType → Bool
  | .structT _ _ _ => true
  | _ => false

/-- setID stamps the pending identifier onto every struct type other than the
main type (after one pointer dereference of the main type), prefixed with a
hash. Translated from the source. -/
def setID (mainType : GoType) (namer : GoType → Str) : SchemaCustomizer :=
  let mainStructType := match mainType with | .ptrT e => e | t => t
  fun _ t _ schema =>
    if !goTypeEq t mainStructType && isStructKind t then
      .ok (false, schema.withExtId ('#' :: namer t))
    else
      .ok (false, schema)

/-- tryMap uses the user defined mapping; when a schema is found the node is
replaced wholesale and the pipeline stops. Translated from the source. -/
def tryMap (mapper : GoType → Option Schema) : SchemaCustomizer :=
  fun _ t _ schema =>
    match mapper t with
    | some s => .ok (true, s)
    | none => .ok (false, schema)

/-- useCutomType invokes the JSONSchema method of types implementing
SchemaProvider (modelled by the provider lookup) and stops; its error is
wrapped with the type name. Translated from the source (name kept verbatim,
including the spelling). -/
def useCutomType (provider : GoType → Option (SchemaTable → Except Str SchemaRef))
    (schemas : SchemaTable) : SchemaCustomizer :=
  fun _ t _ schema =>
    match provider t with
    | none => .ok (false, schema)
    | some js =>
      match js schemas with
      | .error e =>
        .error (str "failed to generate custom schema for " ++ t.nameOf ++ str ": " ++ e)
      | .ok customRef =>
        match customRef.valueOf with
        | some v => .ok (true, v)
        | none => .error (str "panic: nil custom schema value")

/-- markPropertiesRequired appends the required properties of the type to the
schema and never stops. Translated from the source. -/
def markPropertiesRequired : SchemaCustomizer :=
  fun _ t _ schema => .ok (false, schema.appendRequired (getRequiredProps t))

/-- Settings of reflectSchema, mirroring the reflectSettings struct. -/
structure ReflectSettings where
  mapper : GoType → Option Schema
  typeNamer : GoType → Str
  skipExtractSubSchemas : Bool
  customizers : List SchemaCustomizer

/-- Abstract model of the openapi3gen generator NewSchemaRefForValue call: it
receives the customizer flow, the reflected type and the shared table, and
returns the built reference, the updated table, and the number of times it
invoked the flow. -/
abbrev GenFn :=
  (Str → GoType → Str → Schema → Except Str Schema) → GoType → SchemaTable →
    Except Str (SchemaRef × SchemaTable × Nat)

/-- Error wrapper of reflectSchema. -/
def reflectFail (t : GoType) (e : Str) : Str :=
  str "failed to reflect schema " ++ t.stringRepr ++ str "; " ++ e

/-- reflectSchema reflects the type of the sample and returns a reference to
its schema: compute the identifier; when it is already a key of the table
return an immediate reference; otherwise build the customizer pipeline (setID,
then the configured customizers, then tryMap, useCutomType and
markPropertiesRequired), run the generator, register the result under the
identifier, extract sub-schemas unless disabled, and return the reference.
Translated from the source; the final tset after the walk models the Go
aliasing between the registered pointer and the walked root. -/
def reflectSchema (gen : GenFn)
    (provider : GoType → Option (SchemaTable → Except Str SchemaRef))
    (t : GoType) (schemas : SchemaTable) (settings : ReflectSettings) :
    Except Str (SchemaRef × SchemaTable × Nat) :=
  if tcontains schemas (settings.typeNamer t) then
    .ok (.mk (refPre ++ settings.typeNamer t) none, schemas, 0)
  else
    match gen (newCustomizerFlow ([setID t settings.typeNamer] ++ settings.customizers ++
        [tryMap settings.mapper, useCutomType provider schemas, markPropertiesRequired]))
        t schemas with
    | .error e => .error (reflectFail t e)
    | .ok (ref, tbl1, calls) =>
      if !settings.skipExtractSubSchemas && ref.valueOf.isSome then
        match walkSchema extractSubSchemas ref (tset tbl1 (settings.typeNamer t) ref) with
        | .error e => .error (reflectFail t e)
        | .ok (ref2, tbl3) =>
          .ok (.mk (refPre ++ settings.typeNamer t) none,
            tset tbl3 (settings.typeNamer t) ref2, calls)
      else
        .ok (.mk (refPre ++ settings.typeNamer t) none, tset tbl1 (settings.typeNamer t) ref,
          calls)

/-- Updating a key makes it present. -/
theorem tcontains_tset (tbl : SchemaTable) (k : Str) (v : SchemaRef) :
    tcontains (tset tbl k v) k = true := by
  induction tbl with
  | nil => simp [tset, tcontains]
  | cons p rest ih =>
    obtain ⟨k2, v2⟩ := p
    by_cases hk : k2 = k
    · simp [tset, hk, tcontains]
    · rw [tset, if_neg hk]
      simp only [tcontains, List.any_cons] at ih ⊢
      rw [ih]
      simp

/-- A successful reflectSchema leaves the identifier present in the table. -/
theorem reflectSchema_registers (gen : GenFn)
    (provider : GoType → Option (SchemaTable → Except Str SchemaRef))
    (t : GoType) (schemas : SchemaTable) (settings : ReflectSettings)
    (r : SchemaRef) (tbl : SchemaTable) (n : Nat)
    (h : reflectSchema gen provider t schemas settings = .ok (r, tbl, n)) :
    tcontains tbl (settings.typeNamer t) = true := by
  rw [reflectSchema] at h
  by_cases hmem : tcontains schemas (settings.typeNamer t) = true
  · rw [if_pos hmem] at h
    cases h
    exact hmem
  · rw [if_neg hmem] at h
    cases hg : gen (newCustomizerFlow ([setID t settings.typeNamer] ++ settings.customizers ++
        [tryMap settings.mapper, useCutomType provider schemas, markPropertiesRequired]))
        t schemas with
    | error e => rw [hg] at h; cases h
    | ok p =>
      obtain ⟨ref, tbl1, calls⟩ := p
      rw [hg] at h
      dsimp only [] at h
      by_cases hex : (!settings.skipExtractSubSchemas && ref.valueOf.isSome) = true
      · rw [if_pos hex] at h
        cases hw : walkSchema extractSubSchemas ref (tset tbl1 (settings.typeNamer t) ref) with
        | error e => rw [hw] at h; cases h
        | ok q =>
          obtain ⟨ref2, tbl3⟩ := q
          rw [hw] at h
          cases h
          exact tcontains_tset tbl3 (settings.typeNamer t) ref2
      · rw [if_neg hex] at h
        cases h
        exact tcontains_tset tbl1 (settings.typeNamer t) ref

/-! ## Function definitions (Func and friends) and Module -/

/-- Models strings.LastIndex for a single character: the index of its last
occurrence, none when absent (Go returns -1). -/
def lastIndexOf (c : Char) : Str → Option Nat
  | [] => none
  | x :: xs =>
    match lastIndexOf c xs with
    | some i => some (i + 1)
    | none => if x = c then some 0 else none

/-- Models strings.TrimPrefix(s, "."): one leading dot is removed. -/
def trimDot : Str → Str
  | '.' :: r => r
  | s => s

theorem lastIndexOf_eq_none_iff (c : Char) (l : Str) :
    lastIndexOf c l = none ↔ c ∉ l := by
  induction l with
  | nil => simp [lastIndexOf]
  | cons x xs ih =>
    rw [lastIndexOf]
    cases h : lastIndexOf c xs with
    | some i =>
      simp only []
      constructor
      · intro hc; cases hc
      · intro hmem
        exfalso
        have : c ∉ xs := by
          intro hx
          exact hmem (List.mem_cons_of_mem _ hx)
        rw [← ih] at this
        rw [h] at this
        cases this
    | none =>
      have hnx : c ∉ xs := (ih).mp h
      by_cases hx : x = c
      · subst hx
        simp [List.mem_cons]
      · simp [hx, List.mem_cons, hnx, Ne.symm hx]

theorem take_lastIndexOf (c : Char) (l : Str) (i : Nat)
    (h : lastIndexOf c l = some i) :
    l.take i = ((l.reverse.dropWhile (fun x => x ≠ c)).drop 1).reverse := by
  induction l generalizing i with
  | nil => cases h
  | cons x xs ih =>
    rw [lastIndexOf] at h
    cases hxs : lastIndexOf c xs with
    | some j =>
      rw [hxs] at h
      cases h
      have hmem : c ∈ xs := by
        by_contra hc
        rw [← lastIndexOf_eq_none_iff] at hc
        rw [hc] at hxs
        cases hxs
      have hne : xs.reverse.dropWhile (fun x => x ≠ c) ≠ [] := by
        rw [Ne, List.dropWhile_eq_nil_iff]
        push_neg
        exact ⟨c, by simpa using hmem, by simp⟩
      rw [List.take_succ_cons, List.reverse_cons, List.dropWhile_append]
      rw [if_neg (by simpa [List.isEmpty_iff] using hne)]
      rw [List.drop_append_of_le_length (by
        cases hd : xs.reverse.dropWhile (fun x => x ≠ c) with
        | nil => exact absurd hd hne
        | cons a as => simp)]
      rw [List.reverse_append]
      simp only [List.reverse_cons, List.reverse_nil, List.nil_append, List.singleton_append]
      rw [ih j hxs]
    | none =>
      rw [hxs] at h
      by_cases hx : x = c
      · rw [if_pos hx] at h
        cases h
        rw [hx]
        have hnx : c ∉ xs := (lastIndexOf_eq_none_iff c xs).mp hxs
        have hdw : xs.reverse.dropWhile (fun y => y ≠ c) = [] := by
          rw [List.dropWhile_eq_nil_iff]
          intro a ha
          simp only [ne_eq, decide_eq_true_eq]
          intro heq
          subst heq
          exact hnx (by simpa using ha)
        rw [List.take_zero, List.reverse_cons, List.dropWhile_append, hdw]
        simp [List.dropWhile]
      · rw [if_neg hx] at h
        cases h

/-- Name computed by the Func constructors: everything after the last slash,
the whole mountpoint when there is none (Go index -1 plus one). -/
def funcNameOf (m : Str) : Str :=
  match lastIndexOf '/' m with
  | none => m
  | some i => m.drop (i + 1)

/-- Data of a functionDefinition: name, path and the request and response
sample types (the generic parameters of the Go type). -/
structure FunctionDef where
  name : Str
  path : Str
  req : GoType
  res : GoType

/-- The expose.Void placeholder type. -/
def voidType : GoType := .structT (str "github.com/pbedat/expose") (str "Void") []

/-- Func creates a functionDefinition whose name is the mountpoint part after
the last slash and whose path is the mountpoint. Translated from the source;
the request and response types stand for the Go generic parameters. -/
def Func (reqT resT : GoType) (mountpoint : Str) : FunctionDef :=
  ⟨funcNameOf mountpoint, mountpoint, reqT, resT⟩

/-- FuncVoid is Func with a Void response type. -/
def FuncVoid (reqT : GoType) (mountpoint : Str) : FunctionDef := Func reqT voidType mountpoint

/-- FuncNullary is Func with a Void request type. -/
def FuncNullary (resT : GoType) (mountpoint : Str) : FunctionDef := Func voidType resT mountpoint

/-- FuncNullaryVoid is Func with Void request and response types. -/
def FuncNullaryVoid (mountpoint : Str) : FunctionDef := Func voidType voidType mountpoint

/-- Module of a functionDefinition: the path truncated at the last slash,
slashes replaced by dots, one leading dot removed. A path without a slash
makes the Go code slice with a negative bound and panic; that case is
modelled as none. Translated from the source. -/
def FunctionDef.Module (d : FunctionDef) : Option Str :=
  match lastIndexOf '/' d.path with
  | none => none
  | some i => some (trimDot (replaceSlashDot (d.path.take i)))

/-- The module transform as the specification words it: the path truncated at
its last slash, every slash replaced by a dot, and one leading dot removed. -/
def specModuleTransform (p : Str) : Str :=
  trimDot (replaceSlashDot (((p.reverse.dropWhile (fun c => c ≠ '/')).drop 1).reverse))

/-- On a path containing a slash, Module is defined and computes the
transform the specification describes. -/
theorem module_eq_spec (d : FunctionDef) (h : '/' ∈ d.path) :
    d.Module = some (specModuleTransform d.path) := by
  rw [FunctionDef.Module]
  cases hli : lastIndexOf '/' d.path with
  | none =>
    exfalso
    exact absurd ((lastIndexOf_eq_none_iff _ _).mp hli) (by simpa using h)
  | some i =>
    rw [specModuleTransform, ← take_lastIndexOf '/' d.path i hli]

/-- Operation entry of the generated specification: operation id, tags, an
optional request body schema reference and the response schema reference. -/
structure Operation where
  operationId : Str
  tags : List Str
  requestRef : Option SchemaRef
  responseRef : SchemaRef

/-- Reflection of one function into its operation: the operation id joins
Module and Name with a hash; a Void request produces no request body; the
response is always reflected; the module is attached as the only tag.
Translated from the loop body of ReflectSpec; the Module panic on a
slash-free path is modelled as an error. -/
def reflectOp (gen : GenFn)
    (provider : GoType → Option (SchemaTable → Except Str SchemaRef))
    (settings : ReflectSettings) (fn : FunctionDef) (tbl : SchemaTable) :
    Except Str (Operation × SchemaTable) :=
  match fn.Module with
  | none => .error (str "panic: runtime error: slice bounds out of range")
  | some md =>
    if goTypeEq fn.req voidType then
      match reflectSchema gen provider fn.res tbl settings with
      | .error e => .error e
      | .ok (resRef, tbl2, _) =>
        .ok (⟨md ++ str "#" ++ fn.name, [md], none, resRef⟩, tbl2)
    else
      match reflectSchema gen provider fn.req tbl settings with
      | .error e => .error e
      | .ok (reqRef, tbl1, _) =>
        match reflectSchema gen provider fn.res tbl1 settings with
        | .error e => .error e
        | .ok (resRef, tbl2, _) =>
          .ok (⟨md ++ str "#" ++ fn.name, [md], some reqRef, resRef⟩, tbl2)

/-- ReflectSpec reflects all provided functions in order into operation
entries keyed by path, threading the shared schema table; the first failure
aborts wrapped with the spec-level context. Translated from the source
(template handling and the fixed OpenAPI version are outside the model). -/
def ReflectSpec (gen : GenFn)
    (provider : GoType → Option (SchemaTable → Except Str SchemaRef))
    (settings : ReflectSettings) :
    List FunctionDef → SchemaTable → Except Str (List (Str × Operation) × SchemaTable)
  | [], tbl => .ok ([], tbl)
  | fn :: rest, tbl =>
    match reflectOp gen provider settings fn tbl with
    | .error e => .error (str "failed to reflect openapi spec: " ++ e)
    | .ok (op, tbl2) =>
      match ReflectSpec gen provider settings rest tbl2 with
      | .error e => .error e
      | .ok (ops, tbl3) => .ok ((fn.path, op) :: ops, tbl3)

/-- Successful reflection gives, entry by entry, the path of the function,
the operation id Module hash Name, and the module as the only tag. -/
theorem reflectSpec_entries (gen : GenFn)
    (provider : GoType → Option (SchemaTable → Except Str SchemaRef))
    (settings : ReflectSettings) (fns : List FunctionDef) (tbl : SchemaTable)
    (ops : List (Str × Operation)) (tbl2 : SchemaTable)
    (h : ReflectSpec gen provider settings fns tbl = .ok (ops, tbl2)) :
    List.Forall₂ (fun (fn : FunctionDef) (entry : Str × Operation) =>
      entry.1 = fn.path ∧
      ∃ md, fn.Module = some md ∧
        entry.2.operationId = md ++ str "#" ++ fn.name ∧
        entry.2.tags = [md]) fns ops := by
  induction fns generalizing tbl ops with
  | nil =>
    rw [ReflectSpec] at h
    cases h
    exact List.Forall₂.nil
  | cons fn rest ih =>
    rw [ReflectSpec] at h
    cases hop : reflectOp gen provider settings fn tbl with
    | error e => rw [hop] at h; cases h
    | ok p =>
      obtain ⟨op, tblmid⟩ := p
      rw [hop] at h
      dsimp only [] at h
      cases hrest : ReflectSpec gen provider settings rest tblmid with
      | error e => rw [hrest] at h; cases h
      | ok q =>
        obtain ⟨ops2, tbl3⟩ := q
        rw [hrest] at h
        cases h
        refine List.Forall₂.cons ?_ (ih tblmid ops2 hrest)
        refine ⟨rfl, ?_⟩
        rw [reflectOp] at hop
        cases hmd : fn.Module with
        | none => rw [hmd] at hop; cases hop
        | some md =>
          rw [hmd] at hop
          dsimp only [] at hop
          refine ⟨md, rfl, ?_⟩
          by_cases hvoid : goTypeEq fn.req voidType = true
          · rw [if_pos hvoid] at hop
            cases hres : reflectSchema gen provider fn.res tbl settings with
            | error e => rw [hres] at hop; cases hop
            | ok pr =>
              obtain ⟨resRef, tblr, nr⟩ := pr
              rw [hres] at hop
              dsimp only [] at hop
              cases hop
              exact ⟨rfl, rfl⟩
          · rw [if_neg hvoid] at hop
            cases hreq : reflectSchema gen provider fn.req tbl settings with
            | error e => rw [hreq] at hop; cases hop
            | ok pq =>
              obtain ⟨reqRef, tblq, nq⟩ := pq
              rw [hreq] at hop
              dsimp only [] at hop
              cases hres : reflectSchema gen provider fn.res tblq settings with
              | error e => rw [hres] at hop; cases hop
              | ok pr =>
                obtain ⟨resRef, tblr, nr⟩ := pr
                rw [hres] at hop
                dsimp only [] at hop
                cases hop
                exact ⟨rfl, rfl⟩

/-! ## Endpoint discovery model (Struct, traverseStruct)

Parameter and result types of methods are abstracted to what the discovery
code inspects: an identity plus whether the type implements context.Context
and whether it implements error. Method sets are modelled on the struct
value: a method carries a flag telling whether it has a pointer receiver;
the value method set consists of the value-receiver methods, the pointer
method set of all of them, as in Go. Go enumerates methods sorted by name;
the model keeps the list order. strcase.ToKebab of the dependency is
modelled by a simplified kebab-casing.
-/

structure PType where
  tname : Str
  implCtx : Bool
  implErr : Bool
deriving DecidableEq

structure MethodSig where
  ins : List PType
  outs : List PType
deriving DecidableEq

structure Method where
  name : Str
  exported : Bool
  ptrReceiver : Bool
  sig : MethodSig
deriving DecidableEq

mutual
inductive GoVal : Type where
  | ptrV (v : Option GoVal)
  | ifaceV (v : Option GoVal)
  | structV (methods : List Method) (fields : List FieldV)
  | otherV
inductive FieldV : Type where
  | mk (name : Str) (exported : Bool) (val : GoVal)
end

/-- Kebab model: an upper-case letter becomes a dash plus its lower case,
except at the first position. Simplified model of strcase.ToKebab. -/
def kebabChar (c : Char) : Str := if c.isUpper then ['-', c.toLower] else [c]

/-- Kebab-casing of a name. -/
def toKebab : Str → Str
  | [] => []
  | c :: rest => c.toLower :: rest.flatMap kebabChar

/-- isExposableMethod checks that a method takes at least one parameter whose
first implements context.Context and returns one or two values whose last
(or only) implements error. There is no upper bound on the number of
parameters in the source. Translated from the source. -/
def isExposableMethod (sig : MethodSig) : Bool :=
  match sig.ins with
  | [] => false
  | c :: _ =>
    match sig.outs with
    | [e] => c.implCtx && e.implErr
    | [_, e] => c.implCtx && e.implErr
    | _ => false

/-- structFunctionDefinition data: name, path, optional request and response
types and the nullary and void flags (the bound method value itself is not
representable and not needed by any claim). -/
structure StructFn where
  name : Str
  path : Str
  reqType : Option PType
  resType : Option PType
  isNullary : Bool
  isVoid : Bool
deriving DecidableEq

/-- createFunction repeats the guard checks of isExposableMethod except the
single-result error check, then switches on the arity: context plus request
with one or two results, or context alone with one or two results; any other
arity yields nothing. Translated from the source. -/
def createFunction (path mname : Str) (sig : MethodSig) : Option StructFn :=
  match sig.ins, sig.outs with
  | [], _ => none
  | _, [] => none
  | c :: ins1, outs =>
    if outs.length > 2 then none
    else if !c.implCtx then none
    else if outs.length = 2 && !((outs.getLast?).getD ⟨[], false, false⟩).implErr then none
    else
      match ins1, outs with
      | [q], [r, _] => some ⟨mname, path, some q, some r, false, false⟩
      | [q], [_] => some ⟨mname, path, some q, none, false, true⟩
      | [], [r, _] => some ⟨mname, path, none, some r, true, false⟩
      | [], [_] => some ⟨mname, path, none, none, true, true⟩
      | _, _ => none

/-- Loop over the value method set: exported exposable methods in order. -/
def collectExposable : List Method → List Method
  | [] => []
  | m :: rest =>
    if m.exported && isExposableMethod m.sig then m :: collectExposable rest
    else collectExposable rest

/-- Loop over the pointer method set: a method whose name was already
collected is skipped, otherwise exported exposable methods are appended.
Translated from the source. -/
def collectPtrGo (acc : List Method) : List Method → List Method
  | [] => acc
  | m :: rest =>
    if acc.any (fun m2 => m2.name = m.name) then collectPtrGo acc rest
    else if m.exported && isExposableMethod m.sig then collectPtrGo (acc ++ [m]) rest
    else collectPtrGo acc rest

/-- getExposableMethods collects the exposable methods of the value method
set and, when the value is addressable, of the pointer method set with
name-based dedup. Translated from the source. -/
def getExposableMethods (addressable : Bool) (ms : List Method) : List Method :=
  if addressable then
    collectPtrGo (collectExposable (ms.filter (fun m => !m.ptrReceiver))) ms
  else
    collectExposable (ms.filter (fun m => !m.ptrReceiver))

/-- Method registration block of traverseStruct: a single exposable method
registers at the node path itself, several register one endpoint per method
at the kebab-cased method sub-path, each only when createFunction succeeds.
Translated from the source. -/
def methodFns (path : Str) (methods : List Method) : List StructFn :=
  match methods with
  | [mi] => (createFunction path mi.name mi.sig).toList
  | [] => []
  | _ => methods.filterMap (fun mi => createFunction (path ++ '/' :: toKebab mi.name) mi.name mi.sig)

mutual
/-- traverseStruct: dereference a pointer once (nil contributes nothing) and
continue on the pointee, which becomes addressable. Translated from the
source. -/
def traverseStruct (path : Str) (v : GoVal) (addr : Bool) : List StructFn :=
  match v with
  | .ptrV none => []
  | .ptrV (some e) => traverseBody path e true
  | .ifaceV e => traverseBody path (.ifaceV e) addr
  | .structV ms fields => traverseBody path (.structV ms fields) addr
  | .otherV => traverseBody path .otherV addr
termination_by (sizeOf v, 1)

/-- Body of traverseStruct after the pointer step: unwrap an interface (nil
contributes nothing, the concrete value restarts the traversal and is not
addressable), process only structs: the method block, then every exported
field at its kebab-cased sub-path, unexported fields silently skipped.
Translated from the source. -/
def traverseBody (path : Str) (v : GoVal) (addr : Bool) : List StructFn :=
  match v with
  | .ifaceV none => []
  | .ifaceV (some e) => traverseStruct path e false
  | .structV ms fields =>
    methodFns path (getExposableMethods addr ms) ++ traverseFields path addr fields
  | _ => []
termination_by (sizeOf v, 0)

/-- Field loop of traverseStruct. -/
def traverseFields (path : Str) (addr : Bool) : List FieldV → List StructFn
  | [] => []
  | .mk fname ex fv :: rest =>
    (if ex then traverseStruct (path ++ '/' :: toKebab fname) fv addr else []) ++
      traverseFields path addr rest
termination_by l => (sizeOf l, 0)
end

/-- Struct traverses the provided value recursively and registers all public
methods matching the supported signatures; reflect.ValueOf yields a
non-addressable value. Translated from the source. -/
def Struct (basePath : Str) (v : GoVal) : List StructFn :=
  traverseStruct basePath v false

/-- Module of a structFunctionDefinition, identical to the
functionDefinition version. Translated from the source. -/
def StructFn.Module (d : StructFn) : Option Str :=
  match lastIndexOf '/' d.path with
  | none => none
  | some i => some (trimDot (replaceSlashDot (d.path.take i)))

/-- The four supported signature shapes exactly as the specification lists
them: context to result and error, context and request to result and error,
context to error, context and request to error. -/
def matchesSupportedShape (sig : MethodSig) : Bool :=
  match sig.ins, sig.outs with
  | [c], [e] => c.implCtx && e.implErr
  | [c], [_, e] => c.implCtx && e.implErr
  | [c, _], [e] => c.implCtx && e.implErr
  | [c, _], [_, e] => c.implCtx && e.implErr
  | _, _ => false

/-- Eligibility as the code actually computes it, stated in spec style: at
least one parameter, the first implementing context.Context, and one or two
results the last (or only) of which implements error. -/
def eligibleAmendedSpec (sig : MethodSig) : Bool :=
  decide (1 ≤ sig.ins.length) &&
    (sig.ins.headD ⟨[], false, false⟩).implCtx &&
    (decide (sig.outs.length = 1) || decide (sig.outs.length = 2)) &&
    ((sig.outs.getLast?).getD ⟨[], false, false⟩).implErr

/-- Endpoint record the specification associates with each of the four
shapes (request type from the second parameter, response type from the first
result, nullary and void flags from the arities). -/
def specEndpoint (path mname : Str) (sig : MethodSig) : Option StructFn :=
  match sig.ins, sig.outs with
  | [_], [_] => some ⟨mname, path, none, none, true, true⟩
  | [_], [r, _] => some ⟨mname, path, none, some r, true, false⟩
  | [_, q], [_] => some ⟨mname, path, some q, none, false, true⟩
  | [_, q], [r, _] => some ⟨mname, path, some q, some r, false, false⟩
  | _, _ => none

/-- The eligibility filter of the code equals the amended spec wording. -/
theorem isExposable_iff_amended (sig : MethodSig) :
    isExposableMethod sig = eligibleAmendedSpec sig := by
  obtain ⟨ins, outs⟩ := sig
  match ins, outs with
  | [], outs => simp [isExposableMethod, eligibleAmendedSpec]
  | c :: ins1, [] => simp [isExposableMethod, eligibleAmendedSpec]
  | c :: ins1, [e] => simp [isExposableMethod, eligibleAmendedSpec, List.headD]
  | c :: ins1, [r, e] =>
    simp [isExposableMethod, eligibleAmendedSpec, List.headD, List.getLast?]
  | c :: ins1, r1 :: r2 :: r3 :: rest =>
    simp only [isExposableMethod, eligibleAmendedSpec]
    have h1 : ¬(r1 :: r2 :: r3 :: rest).length = 1 := by simp
    have h2 : ¬(r1 :: r2 :: r3 :: rest).length = 2 := by
      simp only [List.length_cons]
      omega
    simp [h1, h2]

/-- On an eligible signature createFunction builds exactly the endpoint the
specification associates with its shape, and nothing for other arities. -/
theorem createFunction_eq_spec (path mname : Str) (sig : MethodSig)
    (h : isExposableMethod sig = true) :
    createFunction path mname sig = specEndpoint path mname sig := by
  obtain ⟨ins, outs⟩ := sig
  match ins, outs with
  | [], outs => simp [isExposableMethod] at h
  | c :: ins1, [] => simp [isExposableMethod] at h
  | c :: ins1, [e] =>
    simp only [isExposableMethod, Bool.and_eq_true] at h
    match ins1 with
    | [] => simp [createFunction, specEndpoint, h.1, h.2]
    | [q] => simp [createFunction, specEndpoint, h.1, h.2]
    | q1 :: q2 :: qrest => simp [createFunction, specEndpoint, h.1, h.2]
  | c :: ins1, [r, e] =>
    simp only [isExposableMethod, Bool.and_eq_true] at h
    match ins1 with
    | [] => simp [createFunction, specEndpoint, h.1, h.2, List.getLast?]
    | [q] => simp [createFunction, specEndpoint, h.1, h.2, List.getLast?]
    | q1 :: q2 :: qrest => simp [createFunction, specEndpoint, h.1, h.2, List.getLast?]
  | c :: ins1, r1 :: r2 :: r3 :: rest =>
    simp [isExposableMethod] at h

/-- Methods collected by the value loop are exported and eligible. -/
theorem mem_collectExposable (ms : List Method) (m : Method)
    (h : m ∈ collectExposable ms) :
    m ∈ ms ∧ m.exported = true ∧ isExposableMethod m.sig = true := by
  induction ms with
  | nil => simp [collectExposable] at h
  | cons m2 rest ih =>
    rw [collectExposable] at h
    by_cases hc : (m2.exported && isExposableMethod m2.sig) = true
    · rw [if_pos hc] at h
      rcases List.mem_cons.mp h with h1 | h2
      · subst h1
        simp only [Bool.and_eq_true] at hc
        exact ⟨List.mem_cons_self _ _, hc.1, hc.2⟩
      · obtain ⟨ha, hb, hd⟩ := ih h2
        exact ⟨List.mem_cons_of_mem _ ha, hb, hd⟩
    · rw [if_neg hc] at h
      obtain ⟨ha, hb, hd⟩ := ih h
      exact ⟨List.mem_cons_of_mem _ ha, hb, hd⟩

/-- Methods collected by the pointer loop come from the accumulator or are
exported and eligible members of the enumerated list. -/
theorem mem_collectPtrGo (acc ms : List Method) (m : Method)
    (h : m ∈ collectPtrGo acc ms) :
    m ∈ acc ∨ (m ∈ ms ∧ m.exported = true ∧ isExposableMethod m.sig = true) := by
  induction ms generalizing acc with
  | nil => rw [collectPtrGo] at h; exact Or.inl h
  | cons m2 rest ih =>
    rw [collectPtrGo] at h
    by_cases hdup : (acc.any (fun m3 => m3.name = m2.name)) = true
    · rw [if_pos hdup] at h
      rcases ih acc h with h1 | ⟨ha, hb, hd⟩
      · exact Or.inl h1
      · exact Or.inr ⟨List.mem_cons_of_mem _ ha, hb, hd⟩
    · rw [if_neg hdup] at h
      by_cases hc : (m2.exported && isExposableMethod m2.sig) = true
      · rw [if_pos hc] at h
        rcases ih (acc ++ [m2]) h with h1 | ⟨ha, hb, hd⟩
        · rcases List.mem_append.mp h1 with h3 | h3
          · exact Or.inl h3
          · simp only [List.mem_singleton] at h3
            subst h3
            simp only [Bool.and_eq_true] at hc
            exact Or.inr ⟨List.mem_cons_self _ _, hc.1, hc.2⟩
        · exact Or.inr ⟨List.mem_cons_of_mem _ ha, hb, hd⟩
      · rw [if_neg hc] at h
        rcases ih acc h with h1 | ⟨ha, hb, hd⟩
        · exact Or.inl h1
        · exact Or.inr ⟨List.mem_cons_of_mem _ ha, hb, hd⟩

/-- Every eligible-collected method is exported with an eligible signature. -/
theorem mem_getExposable (addressable : Bool) (ms : List Method) (m : Method)
    (h : m ∈ getExposableMethods addressable ms) :
    m.exported = true ∧ isExposableMethod m.sig = true := by
  cases addressable with
  | false =>
    simp only [getExposableMethods, Bool.false_eq_true, if_false] at h
    obtain ⟨_, hb, hd⟩ := mem_collectExposable _ _ h
    exact ⟨hb, hd⟩
  | true =>
    simp only [getExposableMethods, if_true] at h
    rcases mem_collectPtrGo _ _ _ h with h1 | ⟨_, hb, hd⟩
    · obtain ⟨_, hb, hd⟩ := mem_collectExposable _ _ h1
      exact ⟨hb, hd⟩
    · exact ⟨hb, hd⟩

/-- The accumulator survives the pointer loop. -/
theorem collectPtrGo_mono (acc ms : List Method) (m : Method) (h : m ∈ acc) :
    m ∈ collectPtrGo acc ms := by
  induction ms generalizing acc with
  | nil => rw [collectPtrGo]; exact h
  | cons m2 rest ih =>
    rw [collectPtrGo]
    by_cases hdup : (acc.any (fun m3 => m3.name = m2.name)) = true
    · rw [if_pos hdup]; exact ih acc h
    · rw [if_neg hdup]
      by_cases hc : (m2.exported && isExposableMethod m2.sig) = true
      · rw [if_pos hc]
        exact ih (acc ++ [m2]) (List.mem_append.mpr (Or.inl h))
      · rw [if_neg hc]
        exact ih acc h

/-- An exported eligible member of the enumerated list is collected. -/
theorem mem_collectExposable_of (l : List Method) (m : Method) (hm : m ∈ l)
    (hex : m.exported = true) (helig : isExposableMethod m.sig = true) :
    m ∈ collectExposable l := by
  induction l with
  | nil => simp at hm
  | cons m2 rest ih =>
    rw [collectExposable]
    rcases List.mem_cons.mp hm with h1 | h2
    · subst h1
      rw [if_pos (by simp [hex, helig])]
      exact List.mem_cons_self _ _
    · by_cases hc : (m2.exported && isExposableMethod m2.sig) = true
      · rw [if_pos hc]
        exact List.mem_cons_of_mem _ (ih h2)
      · rw [if_neg hc]
        exact ih h2

/-- Exported eligible value-receiver methods are always collected. -/
theorem valueMethod_mem_getExposable (addressable : Bool) (ms : List Method) (m : Method)
    (hm : m ∈ ms) (hptr : m.ptrReceiver = false) (hex : m.exported = true)
    (helig : isExposableMethod m.sig = true) :
    m ∈ getExposableMethods addressable ms := by
  have hval : m ∈ collectExposable (ms.filter (fun m2 => !m2.ptrReceiver)) := by
    refine mem_collectExposable_of _ _ ?_ hex helig
    rw [List.mem_filter]
    exact ⟨hm, by simp [hptr]⟩
  cases addressable with
  | false => simpa [getExposableMethods] using hval
  | true =>
    simpa [getExposableMethods] using collectPtrGo_mono _ ms m hval

/-- Node-level endpoints as the amended specification words them: one
endpoint at the node path for a lone eligible method of supported shape,
one endpoint per supported-shape method at the kebab-cased method sub-path
when there are several, nothing otherwise. -/
def nodeEndpointsSpec (path : Str) (E : List Method) : List StructFn :=
  match E with
  | [] => []
  | [m] => (specEndpoint path m.name m.sig).toList
  | _ => E.flatMap (fun m => (specEndpoint (path ++ '/' :: toKebab m.name) m.name m.sig).toList)

/-- Pointwise agreement of createFunction with specEndpoint lifted to the
multi-method loop. -/
theorem filterMapCreate_eq_spec (path : Str) (l : List Method)
    (h : ∀ m ∈ l, isExposableMethod m.sig = true) :
    l.filterMap (fun mi => createFunction (path ++ '/' :: toKebab mi.name) mi.name mi.sig) =
      l.flatMap (fun m => (specEndpoint (path ++ '/' :: toKebab m.name) m.name m.sig).toList) := by
  induction l with
  | nil => rfl
  | cons m rest ih =>
    rw [List.filterMap_cons, List.flatMap_cons]
    rw [createFunction_eq_spec _ _ _ (h m (List.mem_cons_self _ _))]
    have ihr := ih (fun m2 hm2 => h m2 (List.mem_cons_of_mem _ hm2))
    cases hs : specEndpoint (path ++ '/' :: toKebab m.name) m.name m.sig with
    | none => simp [ihr]
    | some fn => simp [ihr]

/-- On a list of exported eligible methods the registration block of the
source equals the spec-level description. -/
theorem methodFns_eq_spec (path : Str) (E : List Method)
    (h : ∀ m ∈ E, isExposableMethod m.sig = true) :
    methodFns path E = nodeEndpointsSpec path E := by
  match E with
  | [] => rfl
  | [m] =>
    rw [methodFns, nodeEndpointsSpec]
    rw [createFunction_eq_spec path m.name m.sig (h m (List.mem_singleton.mpr rfl))]
  | m1 :: m2 :: rest =>
    have h1 : methodFns path (m1 :: m2 :: rest) =
        (m1 :: m2 :: rest).filterMap
          (fun mi => createFunction (path ++ '/' :: toKebab mi.name) mi.name mi.sig) := by
      rw [methodFns]
      · simp
      · simp
    have h2 : nodeEndpointsSpec path (m1 :: m2 :: rest) =
        (m1 :: m2 :: rest).flatMap
          (fun m => (specEndpoint (path ++ '/' :: toKebab m.name) m.name m.sig).toList) := by
      rw [nodeEndpointsSpec]
      · simp
      · simp
    rw [h1, h2]
    exact filterMapCreate_eq_spec path _ h

/-- Field accessors. -/
def FieldV.fname : FieldV → Str
  | .mk n _ _ => n

def FieldV.fexported : FieldV → Bool
  | .mk _ e _ => e

def FieldV.fval : FieldV → GoVal
  | .mk _ _ v => v

/-- The path stored by createFunction is the path it was given. -/
theorem createFunction_path (p n : Str) (sig : MethodSig) (fn : StructFn)
    (h : createFunction p n sig = some fn) : fn.path = p := by
  unfold createFunction at h
  repeat' split at h
  all_goals cases h
  all_goals rfl

/-- Membership in the node registration block: the lone-method endpoint sits
at the node path, multi-method endpoints at the kebab-cased method path. -/
theorem mem_methodFns (path : Str) (E : List Method) (fn : StructFn)
    (h : fn ∈ methodFns path E) :
    fn.path = path ∨ (2 ≤ E.length ∧ ∃ m ∈ E, fn.path = path ++ '/' :: toKebab m.name) := by
  match E with
  | [] => rw [methodFns] at h; cases h
  | [m] =>
    rw [methodFns] at h
    cases hc : createFunction path m.name m.sig with
    | none => rw [hc] at h; cases h
    | some fn2 =>
      rw [hc] at h
      simp only [Option.toList_some, List.mem_singleton] at h
      subst h
      exact Or.inl (createFunction_path _ _ _ _ hc)
  | m1 :: m2 :: rest =>
    have hm : methodFns path (m1 :: m2 :: rest) =
        (m1 :: m2 :: rest).filterMap
          (fun mi => createFunction (path ++ '/' :: toKebab mi.name) mi.name mi.sig) := by
      rw [methodFns]
      · simp
      · simp
    rw [hm] at h
    obtain ⟨m, hmem, hc⟩ := List.mem_filterMap.mp h
    exact Or.inr ⟨by simp, m, hmem, createFunction_path _ _ _ _ hc⟩

mutual

theorem pathShapeS (path : Str) (v : GoVal) (addr : Bool) (fn : StructFn)
    (h : fn ∈ traverseStruct path v addr) :
    fn.path = path ∨ ∃ r, fn.path = path ++ '/' :: r := by
  match v with
  | .ptrV none => rw [traverseStruct] at h; cases h
  | .ptrV (some e) => rw [traverseStruct] at h; exact pathShapeB path e true fn h
  | .ifaceV e => rw [traverseStruct] at h; exact pathShapeB path (.ifaceV e) addr fn h
  | .structV ms fields =>
    rw [traverseStruct] at h
    exact pathShapeB path (.structV ms fields) addr fn h
  | .otherV => rw [traverseStruct] at h; exact pathShapeB path .otherV addr fn h
termination_by (sizeOf v, 2)

theorem pathShapeB (path : Str) (v : GoVal) (addr : Bool) (fn : StructFn)
    (h : fn ∈ traverseBody path v addr) :
    fn.path = path ∨ ∃ r, fn.path = path ++ '/' :: r := by
  match v with
  | .ifaceV none => rw [traverseBody] at h; cases h
  | .ifaceV (some e) => rw [traverseBody] at h; exact pathShapeS path e false fn h
  | .structV ms fields =>
    rw [traverseBody] at h
    rcases List.mem_append.mp h with h1 | h2
    · rcases mem_methodFns path _ fn h1 with h3 | ⟨_, m, _, h4⟩
      · exact Or.inl h3
      · exact Or.inr ⟨toKebab m.name, h4⟩
    · obtain ⟨f, _, _, t, hp, _⟩ := pathShapeF path addr fields fn h2
      exact Or.inr ⟨toKebab f.fname ++ t, hp⟩
  | .ptrV e =>
    rw [traverseBody] at h
    · cases h
    · simp
    · simp
    · simp
  | .otherV =>
    rw [traverseBody] at h
    · cases h
    · simp
    · simp
    · simp
termination_by (sizeOf v, 1)

theorem pathShapeF (path : Str) (addr : Bool) (fields : List FieldV) (fn : StructFn)
    (h : fn ∈ traverseFields path addr fields) :
    ∃ f ∈ fields, f.fexported = true ∧
      ∃ t, fn.path = path ++ '/' :: (toKebab f.fname ++ t) ∧
        (t = [] ∨ ∃ r, t = '/' :: r) := by
  match fields with
  | [] => rw [traverseFields] at h; cases h
  | .mk fname2 ex fv :: rest =>
    rw [traverseFields] at h
    rcases List.mem_append.mp h with h1 | h2
    · by_cases hex : ex = true
      · rw [if_pos hex] at h1
        rcases pathShapeS _ fv addr fn h1 with h3 | ⟨r, h4⟩
        · refine ⟨.mk fname2 ex fv, List.mem_cons_self _ _, hex, [], ?_, Or.inl rfl⟩
          simpa [FieldV.fname] using h3
        · refine ⟨.mk fname2 ex fv, List.mem_cons_self _ _, hex, '/' :: r, ?_,
            Or.inr ⟨r, rfl⟩⟩
          rw [h4]
          simp [FieldV.fname, List.append_assoc]
      · rw [if_neg hex] at h1
        cases h1
    · obtain ⟨f, hf, hfe, t, hp, ht⟩ := pathShapeF path addr rest fn h2
      exact ⟨f, List.mem_cons_of_mem _ hf, hfe, t, hp, ht⟩
termination_by (sizeOf fields, 0)

end

/-! ## Distinctness of discovered paths -/

/-- Segments the method block contributes: kebab-cased names of the eligible
methods, but only when there are at least two (a lone method registers at the
node path itself and contributes no segment). -/
def methodSegs (addr : Bool) (ms : List Method) : List Str :=
  match getExposableMethods addr ms with
  | [] => []
  | [_] => []
  | E => E.map (fun m => toKebab m.name)

/-- Segments the field descent contributes: kebab-cased exported field names. -/
def fieldSegs (fields : List FieldV) : List Str :=
  (fields.filter (fun f => f.fexported)).map (fun f => toKebab f.fname)

/-- All name segments introduced at one struct node. -/
def nodeSegs (addr : Bool) (ms : List Method) (fields : List FieldV) : List Str :=
  methodSegs addr ms ++ fieldSegs fields

/-- Wellformedness of a segment list: pairwise distinct and slash-free. -/
def segsOk (l : List Str) : Bool :=
  decide l.Nodup && l.all (fun s => decide ('/' ∉ s))

mutual
/-- Collision freedom of a value: at every struct node reached by the
traversal the introduced segments are pairwise distinct and slash-free. -/
def goodVal : GoVal → Bool → Bool
  | .ptrV none, _ => true
  | .ptrV (some e), _ => goodBody e true
  | .ifaceV e, addr => goodBody (.ifaceV e) addr
  | .structV ms fs, addr => goodBody (.structV ms fs) addr
  | .otherV, addr => goodBody .otherV addr
termination_by v _ => (sizeOf v, 1)

def goodBody : GoVal → Bool → Bool
  | .ifaceV none, _ => true
  | .ifaceV (some e), _ => goodVal e false
  | .structV ms fields, addr => segsOk (nodeSegs addr ms fields) && goodFields fields addr
  | _, _ => true
termination_by v _ => (sizeOf v, 0)

def goodFields : List FieldV → Bool → Bool
  | [], _ => true
  | .mk _ ex fv :: rest, addr => (!ex || goodVal fv addr) && goodFields rest addr
termination_by l _ => (sizeOf l, 0)
end

/-- Taking up to the first slash of a slash-free prefix recovers it. -/
theorem firstSeg_append (s t : Str) (hs : '/' ∉ s) (ht : t = [] ∨ ∃ r, t = '/' :: r) :
    (s ++ t).takeWhile (fun c => c ≠ '/') = s := by
  induction s with
  | nil =>
    rcases ht with rfl | ⟨r, rfl⟩
    · rfl
    · simp [List.takeWhile_cons]
  | cons c cs ih =>
    have hc : c ≠ '/' := fun hh => hs (hh ▸ List.mem_cons_self c cs)
    have hcs : '/' ∉ cs := fun hh => hs (List.mem_cons_of_mem _ hh)
    have ih2 := ih hcs
    simp only [ne_eq, decide_not] at ih2 ⊢
    simp [List.takeWhile_cons, hc, ih2]

/-- Two segment-extended paths with slash-free distinct segments differ. -/
theorem seg_paths_ne (path s1 s2 t1 t2 : Str)
    (hs1 : '/' ∉ s1) (hs2 : '/' ∉ s2) (hne : s1 ≠ s2)
    (ht1 : t1 = [] ∨ ∃ r, t1 = '/' :: r) (ht2 : t2 = [] ∨ ∃ r, t2 = '/' :: r) :
    path ++ '/' :: (s1 ++ t1) ≠ path ++ '/' :: (s2 ++ t2) := by
  intro h
  have h2 : ('/' : Char) :: (s1 ++ t1) = '/' :: (s2 ++ t2) := List.append_cancel_left h
  have h3 : s1 ++ t1 = s2 ++ t2 := by injection h2
  have h4 := firstSeg_append s1 t1 hs1 ht1
  have h5 := firstSeg_append s2 t2 hs2 ht2
  rw [h3] at h4
  rw [h4] at h5
  exact hne h5

/-- Multi-method registration paths extend the node path by the kebab-cased
method name. -/
theorem mem_filterMapCreate (path : Str) (l : List Method) (fn : StructFn)
    (h : fn ∈ l.filterMap
      (fun mi => createFunction (path ++ '/' :: toKebab mi.name) mi.name mi.sig)) :
    ∃ m ∈ l, fn.path = path ++ '/' :: toKebab m.name := by
  obtain ⟨m, hmem, hc⟩ := List.mem_filterMap.mp h
  exact ⟨m, hmem, createFunction_path _ _ _ _ hc⟩

/-- Registration paths of a name-distinct method list are distinct. -/
theorem filterMapCreate_nodup (path : Str) (l : List Method)
    (hnd : (l.map (fun m => toKebab m.name)).Nodup) :
    ((l.filterMap
      (fun mi => createFunction (path ++ '/' :: toKebab mi.name) mi.name mi.sig)).map
        StructFn.path).Nodup := by
  induction l with
  | nil => simp
  | cons m rest ih =>
    rw [List.map_cons, List.nodup_cons] at hnd
    obtain ⟨hm, hrest⟩ := hnd
    rw [List.filterMap_cons]
    cases hc : createFunction (path ++ '/' :: toKebab m.name) m.name m.sig with
    | none => exact ih hrest
    | some fn =>
      rw [List.map_cons, List.nodup_cons]
      refine ⟨?_, ih hrest⟩
      intro hmem
      obtain ⟨fn2, hfn2, hp2⟩ := List.mem_map.mp hmem
      obtain ⟨m2, hm2, hp3⟩ := mem_filterMapCreate path rest fn2 hfn2
      have hp1 : fn.path = path ++ '/' :: toKebab m.name := createFunction_path _ _ _ _ hc
      rw [← hp2, hp3] at hp1
      have h4 : toKebab m2.name = toKebab m.name := by
        have := List.append_cancel_left hp1
        injection this
      exact hm (h4 ▸ List.mem_map_of_mem (fun m3 => toKebab m3.name) hm2)

/-- With at least two eligible methods the method segments are their
kebab-cased names. -/
theorem methodSegs_eq (addr : Bool) (ms : List Method)
    (h2 : 2 ≤ (getExposableMethods addr ms).length) :
    methodSegs addr ms = (getExposableMethods addr ms).map (fun m => toKebab m.name) := by
  rw [methodSegs]
  match hE : getExposableMethods addr ms with
  | [] => rw [hE] at h2; simp at h2
  | [m] => rw [hE] at h2; simp at h2
  | m1 :: m2 :: rest => rfl

/-- Paths of the method registration block are pairwise distinct when the
method segments are. -/
theorem methodFns_paths_nodup (path : Str) (addr : Bool) (ms : List Method)
    (hnd : (methodSegs addr ms).Nodup) :
    ((methodFns path (getExposableMethods addr ms)).map StructFn.path).Nodup := by
  match hE : getExposableMethods addr ms with
  | [] => rw [methodFns]; simp
  | [m] =>
    rw [methodFns]
    cases hc : createFunction path m.name m.sig <;> simp [hc]
  | m1 :: m2 :: rest =>
    have hsegs : methodSegs addr ms = (m1 :: m2 :: rest).map (fun m => toKebab m.name) := by
      rw [methodSegs_eq addr ms (by rw [hE]; simp), hE]
    rw [hsegs] at hnd
    have hm : methodFns path (m1 :: m2 :: rest) =
        (m1 :: m2 :: rest).filterMap
          (fun mi => createFunction (path ++ '/' :: toKebab mi.name) mi.name mi.sig) := by
      rw [methodFns]
      · simp
      · simp
    rw [hm]
    exact filterMapCreate_nodup path _ hnd

mutual

theorem nodupS (path : Str) (v : GoVal) (addr : Bool) (hg : goodVal v addr = true) :
    ((traverseStruct path v addr).map StructFn.path).Nodup := by
  match v with
  | .ptrV none => rw [traverseStruct]; simp
  | .ptrV (some e) =>
    rw [traverseStruct]
    rw [goodVal] at hg
    exact nodupB path e true hg
  | .ifaceV e =>
    rw [traverseStruct]
    rw [goodVal] at hg
    exact nodupB path (.ifaceV e) addr hg
  | .structV ms fields =>
    rw [traverseStruct]
    rw [goodVal] at hg
    exact nodupB path (.structV ms fields) addr hg
  | .otherV =>
    rw [traverseStruct]
    rw [goodVal] at hg
    exact nodupB path .otherV addr hg
termination_by (sizeOf v, 2)

theorem nodupB (path : Str) (v : GoVal) (addr : Bool) (hg : goodBody v addr = true) :
    ((traverseBody path v addr).map StructFn.path).Nodup := by
  match v with
  | .ifaceV none => rw [traverseBody]; simp
  | .ifaceV (some e) =>
    rw [traverseBody]
    rw [goodBody] at hg
    exact nodupS path e false hg
  | .structV ms fields =>
    rw [traverseBody]
    rw [goodBody] at hg
    simp only [Bool.and_eq_true] at hg
    obtain ⟨hsegs, hgf⟩ := hg
    rw [segsOk, Bool.and_eq_true] at hsegs
    obtain ⟨hnodup0, hslash0⟩ := hsegs
    have hnodup : (nodeSegs addr ms fields).Nodup := by
      exact of_decide_eq_true hnodup0
    have hslash : ∀ s ∈ nodeSegs addr ms fields, '/' ∉ s := by
      intro s hs
      have := List.all_eq_true.mp hslash0 s hs
      exact of_decide_eq_true this
    rw [nodeSegs] at hnodup hslash
    rw [List.nodup_append] at hnodup
    obtain ⟨hmn, hfn, hdisj⟩ := hnodup
    rw [List.map_append, List.nodup_append]
    refine ⟨methodFns_paths_nodup path addr ms hmn,
      nodupF path addr fields hgf hfn
        (fun s hs => hslash s (List.mem_append.mpr (Or.inr hs))), ?_⟩
    intro a ha hb
    obtain ⟨fn, hfnm, hfp⟩ := List.mem_map.mp ha
    obtain ⟨fn2, hfn2m, hfp2⟩ := List.mem_map.mp hb
    obtain ⟨f, hf, hfe, t2, hp2, ht2⟩ := pathShapeF path addr fields fn2 hfn2m
    have hfseg : toKebab f.fname ∈ fieldSegs fields := by
      rw [fieldSegs]
      exact List.mem_map_of_mem _ (List.mem_filter.mpr ⟨hf, hfe⟩)
    rcases mem_methodFns path _ fn hfnm with hp | ⟨h2len, m, hmE, hp⟩
    · rw [hp] at hfp
      rw [← hfp] at hfp2
      rw [hfp2] at hp2
      have : path.length = (path ++ '/' :: (toKebab f.fname ++ t2)).length := by rw [← hp2]
      simp at this
    · have hmseg : toKebab m.name ∈ methodSegs addr ms := by
        rw [methodSegs_eq addr ms h2len]
        exact List.mem_map_of_mem _ hmE
      have hne : toKebab m.name ≠ toKebab f.fname := by
        intro heq
        exact hdisj hmseg (heq ▸ hfseg)
      have happly := seg_paths_ne path (toKebab m.name) (toKebab f.fname) [] t2
        (hslash _ (List.mem_append.mpr (Or.inl hmseg)))
        (hslash _ (List.mem_append.mpr (Or.inr hfseg)))
        hne (Or.inl rfl) ht2
      rw [List.append_nil] at happly
      rw [hp] at hfp
      rw [← hfp] at hfp2
      rw [hfp2] at hp2
      exact happly hp2
  | .ptrV e =>
    rw [traverseBody]
    · simp
    · simp
    · simp
    · simp
  | .otherV =>
    rw [traverseBody]
    · simp
    · simp
    · simp
    · simp
termination_by (sizeOf v, 1)

theorem nodupF (path : Str) (addr : Bool) (fields : List FieldV)
    (hg : goodFields fields addr = true)
    (hnd : (fieldSegs fields).Nodup)
    (hsl : ∀ s ∈ fieldSegs fields, '/' ∉ s) :
    ((traverseFields path addr fields).map StructFn.path).Nodup := by
  match fields with
  | [] => rw [traverseFields]; simp
  | .mk fname2 ex fv :: rest =>
    rw [traverseFields]
    rw [goodFields, Bool.and_eq_true] at hg
    obtain ⟨hgf, hgrest⟩ := hg
    by_cases hex : ex = true
    · rw [if_pos hex]
      have hsegcons : fieldSegs (.mk fname2 ex fv :: rest) = toKebab fname2 :: fieldSegs rest := by
        rw [fieldSegs, fieldSegs]
        rw [List.filter_cons]
        rw [if_pos (by simp [FieldV.fexported, hex])]
        simp [FieldV.fname]
      rw [hsegcons, List.nodup_cons] at hnd
      obtain ⟨hhead, hrestnd⟩ := hnd
      have hslhead : '/' ∉ toKebab fname2 := by
        apply hsl
        rw [hsegcons]
        exact List.mem_cons_self _ _
      have hslrest : ∀ s ∈ fieldSegs rest, '/' ∉ s := by
        intro s hs
        apply hsl
        rw [hsegcons]
        exact List.mem_cons_of_mem _ hs
      have hgood : goodVal fv addr = true := by
        rw [hex] at hgf
        simpa using hgf
      rw [List.map_append, List.nodup_append]
      refine ⟨nodupS _ fv addr hgood, nodupF path addr rest hgrest hrestnd hslrest, ?_⟩
      intro a ha hb
      obtain ⟨fn, hfnm, hfp⟩ := List.mem_map.mp ha
      obtain ⟨fn2, hfn2m, hfp2⟩ := List.mem_map.mp hb
      obtain ⟨f2, hf2, hf2e, t2, hp2, ht2⟩ := pathShapeF path addr rest fn2 hfn2m
      have hf2seg : toKebab f2.fname ∈ fieldSegs rest := by
        rw [fieldSegs]
        exact List.mem_map_of_mem _ (List.mem_filter.mpr ⟨hf2, hf2e⟩)
      have hne : toKebab fname2 ≠ toKebab f2.fname := by
        intro heq
        exact hhead (heq ▸ hf2seg)
      rcases pathShapeS _ fv addr fn hfnm with hp | ⟨r, hp⟩
      · have happly := seg_paths_ne path (toKebab fname2) (toKebab f2.fname) [] t2
          hslhead (hslrest _ hf2seg) hne (Or.inl rfl) ht2
        rw [List.append_nil] at happly
        rw [hp] at hfp
        rw [← hfp] at hfp2
        rw [hfp2] at hp2
        exact happly hp2
      · have happly := seg_paths_ne path (toKebab fname2) (toKebab f2.fname) ('/' :: r) t2
          hslhead (hslrest _ hf2seg) hne (Or.inr ⟨r, rfl⟩) ht2
        rw [hp] at hfp
        rw [← hfp] at hfp2
        rw [hfp2] at hp2
        rw [List.append_assoc] at hp2
        exact happly hp2
    · rw [if_neg hex]
      have hsegskip : fieldSegs (.mk fname2 ex fv :: rest) = fieldSegs rest := by
        rw [fieldSegs, fieldSegs]
        rw [List.filter_cons]
        rw [if_neg (by simp [FieldV.fexported, hex])]
      rw [hsegskip] at hnd
      have hslrest : ∀ s ∈ fieldSegs rest, '/' ∉ s := by
        intro s hs
        apply hsl
        rw [hsegskip]
        exact hs
      simp only [List.nil_append]
      exact nodupF path addr rest hgrest hnd hslrest
termination_by (sizeOf fields, 0)

end

/-! ## Remaining support lemmas for the claims -/

/-- Field loop equals the filtered flat map over exported fields. -/
theorem traverseFields_eq_spec (path : Str) (addr : Bool) (fields : List FieldV) :
    traverseFields path addr fields =
      (fields.filter (fun f => f.fexported)).flatMap
        (fun f => traverseStruct (path ++ '/' :: toKebab f.fname) f.fval addr) := by
  induction fields with
  | nil => rw [traverseFields]; simp
  | cons f rest ih =>
    obtain ⟨fname2, ex, fv⟩ := f
    rw [traverseFields, List.filter_cons]
    by_cases hex : ex = true
    · rw [if_pos hex, if_pos (by simp [FieldV.fexported, hex])]
      rw [List.flatMap_cons, ih]
      simp [FieldV.fname, FieldV.fval]
    · rw [if_neg hex, if_neg (by simp [FieldV.fexported, hex])]
      rw [ih]
      simp

/-- An eligible signature that matches no supported shape creates nothing. -/
theorem createFunction_none_of_not_shape (p n : Str) (sig : MethodSig)
    (helig : isExposableMethod sig = true)
    (hshape : matchesSupportedShape sig = false) :
    createFunction p n sig = none := by
  rw [createFunction_eq_spec p n sig helig]
  obtain ⟨ins, outs⟩ := sig
  match ins, outs with
  | [], outs => simp [isExposableMethod] at helig
  | c :: ins1, [] => simp [isExposableMethod] at helig
  | [c], [e] =>
    simp only [isExposableMethod, Bool.and_eq_true] at helig
    simp [matchesSupportedShape, helig.1, helig.2] at hshape
  | [c], [r, e] =>
    simp only [isExposableMethod, Bool.and_eq_true] at helig
    simp [matchesSupportedShape, helig.1, helig.2] at hshape
  | [c, q], [e] =>
    simp only [isExposableMethod, Bool.and_eq_true] at helig
    simp [matchesSupportedShape, helig.1, helig.2] at hshape
  | [c, q], [r, e] =>
    simp only [isExposableMethod, Bool.and_eq_true] at helig
    simp [matchesSupportedShape, helig.1, helig.2] at hshape
  | c :: q1 :: q2 :: qrest, [e] => rfl
  | c :: q1 :: q2 :: qrest, [r, e] => rfl
  | c :: ins1, r1 :: r2 :: r3 :: orest => simp [isExposableMethod] at helig

/-! ## Concrete fixtures for witnesses and counterexamples -/

/-- A primitive int type. -/
def intT : GoType := .prim [] (str "int")

/-- A sample stamped leaf schema node carrying pending identifier T. -/
def tNode : SchemaRef :=
  .mk [] (some (.mk (some (str "#T")) [] [] [] none [] []))

/-- First parent: one property of the stamped type. -/
def parentOne : SchemaRef :=
  .mk [] (some (.mk none [] [] [] none [(str "F1", tNode)] []))

/-- An unstamped extra node making the second parent structurally distinct. -/
def gNode : SchemaRef :=
  .mk [] (some (.mk none [] [] [] none [] [str "x"]))

/-- Second parent: a property of the stamped type plus an extra property. -/
def parentTwo : SchemaRef :=
  .mk [] (some (.mk none [] [] [] none [(str "F2", tNode), (str "G", gNode)] []))

/-- Table after extracting the first parent. -/
def tblOne : SchemaTable := [(str "T", tNode)]

/-- First parent after extraction: the property is now a pure reference. -/
def parentOneX : SchemaRef :=
  .mk [] (some (.mk none [] [] [] none
    [(str "F1", .mk (refPre ++ str "T") none)] []))

/-- Second parent after extraction. -/
def parentTwoX : SchemaRef :=
  .mk [] (some (.mk none [] [] [] none
    [(str "F2", .mk (refPre ++ str "T") none), (str "G", gNode)] []))

/-- Context parameter type. -/
def ctxT : PType := ⟨str "context.Context", true, false⟩

/-- A plain string parameter type. -/
def strT : PType := ⟨str "string", false, false⟩

/-- The error result type. -/
def errT : PType := ⟨str "error", false, true⟩

/-- A context-error signature, one of the supported shapes. -/
def sigCE : MethodSig := ⟨[ctxT], [errT]⟩

/-- A three-parameter signature that still passes the eligibility filter. -/
def sig3 : MethodSig := ⟨[ctxT, strT, strT], [errT]⟩

/-- An exported value-receiver method of the three-parameter signature. -/
def m3 : Method := ⟨str "Handle", true, false, sig3⟩

def mAb : Method := ⟨str "Ab", true, false, sigCE⟩
def mCd : Method := ⟨str "Cd", true, false, sigCE⟩
def mDo : Method := ⟨str "Do", true, false, sigCE⟩

/-- A nested struct with one exposable method. -/
def childV : GoVal := .structV [mDo] []

/-- Root with two methods Ab and Cd and a field Ab: the method Ab and the
field Ab kebab to the same segment ab. -/
def cexRoot : GoVal := .structV [mAb, mCd] [.mk (str "Ab") true childV]

/-- A collision-free variant: the field is named Ef. -/
def goodRoot : GoVal := .structV [mAb, mCd] [.mk (str "Ef") true childV]


/-- Visitor failing exactly at the node whose reference string is bad. -/
def vseek : SchemaRef → Unit → Except Str (Option SchemaRef × Unit) :=
  fun r st => if r.refStr = str "bad" then .error (str "boom") else .ok (none, st)

/-- Tree whose property p holds the failing node. -/
def wtree : SchemaRef :=
  .mk (str "root") (some (.mk none [] [] [] none
    [(str "p", .mk (str "bad") (some (.mk none [] [] [] none [] [])))] []))

/-- A trivial generator: returns a fixed leaf schema, table unchanged, one
pipeline invocation. -/
def wgen : GenFn :=
  fun _ _ tbl => .ok (.mk [] (some (.mk none [] [] [] none [] [])), tbl, 1)

/-- No provider. -/
def wprov : GoType → Option (SchemaTable → Except Str SchemaRef) := fun _ => none

/-- Default-style settings with extraction disabled. -/
def wsettings : ReflectSettings :=
  ⟨fun _ => none, DefaultSchemaIdentifier, true, []⟩


/-! ## Claim theorems -/

/-- Claim C1: when the identifier computed for the sample type is already a
key of the table, reflectSchema returns the components/schemas reference
immediately, independent of the generator, with zero pipeline invocations and
the table unchanged; and after any successful build of the same type into the
same table, the second call is such a pure reference with zero pipeline
invocations. -/
theorem claimC1 :
    (∀ (gen : GenFn) (provider : GoType → Option (SchemaTable → Except Str SchemaRef))
        (t : GoType) (tbl : SchemaTable) (s : ReflectSettings),
      tcontains tbl (s.typeNamer t) = true →
        reflectSchema gen provider t tbl s =
          .ok (.mk (refPre ++ s.typeNamer t) none, tbl, 0)) ∧
    (∀ (gen : GenFn) (provider : GoType → Option (SchemaTable → Except Str SchemaRef))
        (t : GoType) (tbl : SchemaTable) (s : ReflectSettings)
        (r1 : SchemaRef) (tbl1 : SchemaTable) (n1 : Nat),
      reflectSchema gen provider t tbl s = .ok (r1, tbl1, n1) →
        reflectSchema gen provider t tbl1 s =
          .ok (.mk (refPre ++ s.typeNamer t) none, tbl1, 0)) := by
  constructor
  · intro gen provider t tbl s h
    rw [reflectSchema, if_pos h]
  · intro gen provider t tbl s r1 tbl1 n1 h
    have hc := reflectSchema_registers gen provider t tbl s r1 tbl1 n1 h
    rw [reflectSchema, if_pos hc]

/-- Table with the int identifier registered, as produced by the first
build of the C1 witness. -/
def tblInt : SchemaTable := [(str "int", .mk [] (some (.mk none [] [] [] none [] [])))]

/-- Witness for C1 at concrete inputs: the dedup hit and the build-twice
scenario. -/
theorem claimC1_witness :
    (tcontains tblInt (wsettings.typeNamer intT) = true ∧
      reflectSchema wgen wprov intT tblInt wsettings =
        .ok (.mk (refPre ++ wsettings.typeNamer intT) none, tblInt, 0)) ∧
    (reflectSchema wgen wprov intT [] wsettings =
        .ok (.mk (refPre ++ str "int") none, tblInt, 1) ∧
      reflectSchema wgen wprov intT tblInt wsettings =
        .ok (.mk (refPre ++ wsettings.typeNamer intT) none, tblInt, 0)) :=
  ⟨⟨rfl, claimC1.1 wgen wprov intT tblInt wsettings rfl⟩,
   ⟨rfl, claimC1.2 wgen wprov intT [] wsettings _ _ _ rfl⟩⟩

/-- Claim C2: extraction always succeeds and leaves no nested node stamped
with a pending identifier (each was replaced by a reference); a stamped node
whose identifier already exists in the table is replaced by a reference to
the existing entry with the table unchanged; and in the concrete two-parent
scenario both parents end up referencing the single table entry for T, the
second extraction adding nothing, with exactly one entry under T. -/
theorem claimC2 :
    (∀ (r : SchemaRef) (tbl : SchemaTable),
      ∃ p : SchemaRef × SchemaTable,
        walkSchema extractSubSchemas r tbl = .ok p ∧ noStampsR p.1 = true) ∧
    (∀ (rs idAny : Str) (s : Schema) (tbl : SchemaTable),
      s.extIdOf = some idAny → tcontains tbl (trimHash idAny) = true →
        extractSubSchemas (.mk rs (some s)) tbl =
          .ok (some (.mk (refPre ++ trimHash idAny) none), tbl)) ∧
    (walkSchema extractSubSchemas parentOne [] = .ok (parentOneX, tblOne) ∧
      walkSchema extractSubSchemas parentTwo tblOne = .ok (parentTwoX, tblOne) ∧
      tcount tblOne (str "T") = 1) := by
  refine ⟨extractWalkOk, ?_, ?_, ?_, by decide⟩
  · intro rs idAny s tbl hid hmem
    simp only [extractSubSchemas, SchemaRef.valueOf, hid, hmem, if_pos]
  · simp [parentOne, parentOneX, tNode, tblOne, walkSchema, walkVal, walkItems, walkRefList,
      walkRefEntry, walkPropList, walkPropEntry, extractSubSchemas, eok_bind, epure_eq_ok,
      SchemaRef.valueOf, Schema.extIdOf, trimHash, tcontains, tset, refPre, wrapErr, str]
  · simp [parentTwo, parentTwoX, gNode, tNode, tblOne, walkSchema, walkVal, walkItems,
      walkRefList, walkRefEntry, walkPropList, walkPropEntry, extractSubSchemas, eok_bind,
      epure_eq_ok, SchemaRef.valueOf, Schema.extIdOf, trimHash, tcontains, tset, refPre,
      wrapErr, str]

/-- Witness for C2 at a concrete stamped node whose identifier is present. -/
theorem claimC2_witness :
    (Schema.mk (some (str "#T")) [] [] [] none [] []).extIdOf = some (str "#T") ∧
    tcontains tblOne (trimHash (str "#T")) = true ∧
    extractSubSchemas (.mk [] (some (.mk (some (str "#T")) [] [] [] none [] []))) tblOne =
      .ok (some (.mk (refPre ++ trimHash (str "#T")) none), tblOne) :=
  ⟨rfl, by decide, claimC2.2.1 [] (str "#T") _ tblOne rfl (by decide)⟩

/-- Claim C3 counterexample: the exported three-parameter method m3 matches
none of the four supported shapes, yet the eligibility filter counts it at a
struct node (it is the collected method list), while createFunction still
registers nothing for it. -/
theorem claimC3_counterexample :
    getExposableMethods false [m3] = [m3] ∧
    m3.exported = true ∧
    matchesSupportedShape m3.sig = false ∧
    createFunction (str "/r") m3.name m3.sig = none := by
  refine ⟨by decide, by decide, by decide, by decide⟩

/-- Claim C3 as amended: the eligibility filter accepts exactly the exported
methods with at least one parameter whose first implements context.Context
and one or two results whose last (or only) implements error; every counted
method is exported and eligible, every exported eligible value-receiver
method is counted, and a counted method of unsupported shape still registers
no endpoint. -/
theorem claimC3_amended :
    (∀ sig : MethodSig, isExposableMethod sig = eligibleAmendedSpec sig) ∧
    (∀ (addr : Bool) (ms : List Method) (m : Method),
      m ∈ getExposableMethods addr ms →
        m.exported = true ∧ isExposableMethod m.sig = true) ∧
    (∀ (addr : Bool) (ms : List Method) (m : Method),
      m ∈ ms → m.ptrReceiver = false → m.exported = true →
        isExposableMethod m.sig = true → m ∈ getExposableMethods addr ms) ∧
    (∀ (p n : Str) (sig : MethodSig),
      isExposableMethod sig = true → matchesSupportedShape sig = false →
        createFunction p n sig = none) :=
  ⟨isExposable_iff_amended, mem_getExposable, valueMethod_mem_getExposable,
    fun p n sig h1 h2 => createFunction_none_of_not_shape p n sig h1 h2⟩

/-- Witness for C3 at the concrete three-parameter method. -/
theorem claimC3_witness :
    m3 ∈ getExposableMethods false [m3] ∧
    (m3.exported = true ∧ isExposableMethod m3.sig = true) ∧
    createFunction (str "/r") m3.name m3.sig = none :=
  ⟨by decide, claimC3_amended.2.1 false [m3] m3 (by decide),
    claimC3_amended.2.2.2 (str "/r") m3.name m3.sig (by decide) (by decide)⟩

/-- Claim C4 counterexample: a struct node whose single eligible method is
the three-parameter m3 registers no endpoint at all, although the claim
promises exactly one endpoint at the node path for one eligible method. -/
theorem claimC4_counterexample :
    (getExposableMethods false [m3]).length = 1 ∧
    traverseStruct (str "/r") (.structV [m3] []) false = [] := by
  refine ⟨by decide, ?_⟩
  simp [traverseStruct, traverseBody, methodFns, getExposableMethods, collectExposable,
    createFunction, m3, sig3, ctxT, strT, errT, traverseFields, isExposableMethod, str]

/-- Claim C4 as amended: at every struct node the traversal output is the
node registration block followed by the field descent; the block registers
one endpoint at the node path when the lone eligible method has a supported
shape and none otherwise, one endpoint per supported-shape eligible method
at the kebab-cased method sub-path when there are several, and nothing when
there are none; the descent recurses into exactly the exported fields at the
kebab-cased field sub-path, silently skipping unexported fields. -/
theorem claimC4_amended :
    ∀ (path : Str) (addr : Bool) (ms : List Method) (fields : List FieldV),
      traverseStruct path (.structV ms fields) addr =
        nodeEndpointsSpec path (getExposableMethods addr ms) ++
          (fields.filter (fun f => f.fexported)).flatMap
            (fun f => traverseStruct (path ++ '/' :: toKebab f.fname) f.fval addr) := by
  intro path addr ms fields
  rw [traverseStruct, traverseBody]
  rw [methodFns_eq_spec path _ (fun m hm => (mem_getExposable addr ms m hm).2)]
  rw [traverseFields_eq_spec]

/-- Claim C5 counterexample: the tag foo,omitempty,string carries the
omitempty flag in the Go tag convention, yet the field stays required under
its annotation name. -/
theorem claimC5_counterexample :
    tagHasOmitempty (str "foo,omitempty,string") = true ∧
    getRequiredProps (.structT [] (str "S")
      [.mk (str "Foo") (str "foo,omitempty,string") false (.prim [] (str "string"))]) =
      [str "foo"] := by
  refine ⟨by decide, ?_⟩
  simp [getRequiredProps, reqFields, reqField, strCut, str]

/-- Claim C5 as amended: getRequiredProps computes exactly the spec rules
with the omitempty exclusion narrowed to tags whose entire option part is
the word omitempty: embedded fields flatten recursively, untagged fields
keep their declared name, the dash sentinel excludes, an exact omitempty
option part excludes, otherwise the annotation name (falling back to the
declared name) is required; pointers are dereferenced and other
non-struct types yield the empty set. -/
theorem claimC5_amended : ∀ t : GoType, getRequiredProps t = requiredSpec t :=
  getRequired_eq_spec

/-- Claim C6: both naming strategies are deterministic, pointer-transparent,
and give slice types the element identifier with the List suffix. -/
theorem claimC6 : ∀ t : GoType,
    DefaultSchemaIdentifier t = DefaultSchemaIdentifier t ∧
    DefaultSchemaIdentifier (.ptrT t) = DefaultSchemaIdentifier t ∧
    DefaultSchemaIdentifier (.sliceT t) = DefaultSchemaIdentifier t ++ str "List" ∧
    ShortSchemaIdentifier t = ShortSchemaIdentifier t ∧
    ShortSchemaIdentifier (.ptrT t) = ShortSchemaIdentifier t ∧
    ShortSchemaIdentifier (.sliceT t) = ShortSchemaIdentifier t ++ str "List" :=
  fun _ => ⟨rfl, rfl, rfl, rfl, rfl, rfl⟩

/-- Claim C7: the walk visits children before the parent in the order allOf,
anyOf, oneOf, items, properties, node (the collecting visitor log equals the
spec postorder, in which nodes without a schema body do not appear and are
never visited); a node without a schema body is returned untouched without
visiting; and any error the walk returns is the first visitor error wrapped
in a stack of the positional contexts allOf, items and prop. -/
theorem claimC7 :
    (∀ (r : SchemaRef) (st : List SchemaRef),
      walkSchema collectV r st = .ok (r, st ++ specPostorder r)) ∧
    (∀ (σ : Type) (v : SchemaRef → σ → Except Str (Option SchemaRef × σ))
        (ref : Str) (st : σ),
      walkSchema v (.mk ref none) st = .ok (.mk ref none, st)) ∧
    (∀ (σ : Type) (v : SchemaRef → σ → Except Str (Option SchemaRef × σ))
        (r : SchemaRef) (st : σ) (e : Str),
      walkSchema v r st = .error e → WrappedVisitorErr v e) := by
  refine ⟨walkCollect, ?_, ?_⟩
  · intro σ v ref st
    rw [walkSchema]
  · intro σ v r st e h
    exact walkErrShape v r st e h

/-- Witness for C7: a visitor failing at a property node aborts the whole
walk with the prop context wrapped around its error. -/
theorem claimC7_witness :
    walkSchema vseek wtree () = .error (str "prop p: boom") ∧
    WrappedVisitorErr vseek (str "prop p: boom") := by
  have h : walkSchema vseek wtree () = .error (str "prop p: boom") := by
    simp [wtree, vseek, walkSchema, walkVal, walkItems, walkRefList, walkRefEntry,
      walkPropList, walkPropEntry, eok_bind, eerr_bind, epure_eq_ok, SchemaRef.refStr,
      wrapErr, str]
  exact ⟨h, claimC7.2.2 Unit vseek wtree () (str "prop p: boom") h⟩

/-- Claim C8: on a path containing a slash, Module computes the path
truncated at its last slash with slashes replaced by dots and one leading
dot removed; and every operation entry a successful ReflectSpec emits
carries the operation id Module hash Name and the module string as its only
tag, keyed by the function path. -/
theorem claimC8 :
    (∀ d : FunctionDef, '/' ∈ d.path → d.Module = some (specModuleTransform d.path)) ∧
    (∀ (gen : GenFn) (provider : GoType → Option (SchemaTable → Except Str SchemaRef))
        (settings : ReflectSettings) (fns : List FunctionDef) (tbl : SchemaTable)
        (ops : List (Str × Operation)) (tbl2 : SchemaTable),
      ReflectSpec gen provider settings fns tbl = .ok (ops, tbl2) →
        List.Forall₂ (fun (fn : FunctionDef) (entry : Str × Operation) =>
          entry.1 = fn.path ∧
          ∃ md, fn.Module = some md ∧
            entry.2.operationId = md ++ str "#" ++ fn.name ∧
            entry.2.tags = [md]) fns ops) :=
  ⟨module_eq_spec, reflectSpec_entries⟩

/-- Witness for C8 at the counter example function of the repository. -/
theorem claimC8_witness :
    ('/' ∈ (Func intT intT (str "/counter/inc")).path ∧
      (Func intT intT (str "/counter/inc")).Module =
        some (specModuleTransform (Func intT intT (str "/counter/inc")).path)) ∧
    List.Forall₂ (fun (fn : FunctionDef) (entry : Str × Operation) =>
      entry.1 = fn.path ∧
      ∃ md, fn.Module = some md ∧
        entry.2.operationId = md ++ str "#" ++ fn.name ∧
        entry.2.tags = [md])
      [Func intT intT (str "/counter/inc")]
      [(str "/counter/inc",
        ⟨str "counter" ++ str "#" ++ str "inc", [str "counter"],
          some (.mk (refPre ++ str "int") none), .mk (refPre ++ str "int") none⟩)] := by
  have hok : ReflectSpec wgen wprov wsettings [Func intT intT (str "/counter/inc")] [] =
      .ok ([(str "/counter/inc",
        ⟨str "counter" ++ str "#" ++ str "inc", [str "counter"],
          some (.mk (refPre ++ str "int") none), .mk (refPre ++ str "int") none⟩)],
        [(str "int", .mk [] (some (.mk none [] [] [] none [] [])))]) := by
    simp only [ReflectSpec, reflectOp, Func, funcNameOf, FunctionDef.Module, lastIndexOf,
      goTypeEq, goFieldsEq, intT, voidType, reflectSchema, wgen, wprov, wsettings, tcontains,
      tset, DefaultSchemaIdentifier, refPre, trimDot, replaceSlashDot, str]
    rfl
  refine ⟨⟨by decide, claimC8.1 _ (by decide)⟩, ?_⟩
  exact claimC8.2 wgen wprov wsettings _ [] _ _ hok

/-- Claim C9 counterexample: the method Ab and the field Ab of the root both
kebab to the segment ab, so one discovery pass returns the path /r/ab twice. -/
theorem claimC9_counterexample :
    ¬ ((Struct (str "/r") cexRoot).map StructFn.path).Nodup := by
  have h : (Struct (str "/r") cexRoot).map StructFn.path =
      [str "/r/ab", str "/r/cd", str "/r/ab"] := by
    simp [Struct, cexRoot, childV, mAb, mCd, mDo, sigCE, ctxT, errT, traverseStruct,
      traverseBody, methodFns, getExposableMethods, collectExposable, createFunction,
      traverseFields, isExposableMethod, toKebab, kebabChar, str]
  rw [h]
  decide

/-- Claim C9 as amended: Struct does not enforce path uniqueness in general,
but when at every visited struct node the kebab-cased segments introduced
there (method names when more than one method is eligible, and exported
field names) are pairwise distinct and slash-free, the discovery pass
returns pairwise distinct paths. -/
theorem claimC9_amended :
    ∀ (basePath : Str) (v : GoVal),
      goodVal v false = true →
        ((Struct basePath v).map StructFn.path).Nodup := by
  intro basePath v hg
  rw [Struct]
  exact nodupS basePath v false hg

/-- Witness for C9 at a collision-free root. -/
theorem claimC9_witness :
    goodVal goodRoot false = true ∧
    ((Struct (str "/r") goodRoot).map StructFn.path).Nodup := by
  have hg : goodVal goodRoot false = true := by
    simp [goodRoot, childV, mAb, mCd, mDo, sigCE, ctxT, errT, goodVal, goodBody, goodFields,
      segsOk, nodeSegs, methodSegs, fieldSegs, getExposableMethods, collectExposable,
      isExposableMethod, toKebab, kebabChar, FieldV.fexported, FieldV.fname, str]
  exact ⟨hg, claimC9_amended (str "/r") goodRoot hg⟩

/-- Claim C10: Func accepts any mountpoint; the returned definition carries
the mountpoint as its path; on a slash-free mountpoint Module is undefined
(the Go code panics slicing with a negative bound, modelled as none) while
Name is the whole mountpoint; with a slash Module is defined; and FuncVoid,
FuncNullary and FuncNullaryVoid build the same definition through Func with
Void filled in. -/
theorem claimC10 :
    ∀ (reqT resT : GoType) (m : Str),
      (Func reqT resT m).path = m ∧
      ('/' ∉ m → (Func reqT resT m).Module = none ∧ (Func reqT resT m).name = m) ∧
      ('/' ∈ m → ((Func reqT resT m).Module).isSome = true) ∧
      FuncVoid reqT m = Func reqT voidType m ∧
      FuncNullary resT m = Func voidType resT m ∧
      FuncNullaryVoid m = Func voidType voidType m := by
  intro reqT resT m
  refine ⟨rfl, ?_, ?_, rfl, rfl, rfl⟩
  · intro hn
    have hli : lastIndexOf '/' m = none := (lastIndexOf_eq_none_iff '/' m).mpr hn
    constructor
    · simp only [FunctionDef.Module, Func, hli]
    · simp only [Func, funcNameOf, hli]
  · intro hs
    cases hli : lastIndexOf '/' m with
    | none => exact absurd ((lastIndexOf_eq_none_iff '/' m).mp hli) (by simpa using hs)
    | some i =>
      simp only [FunctionDef.Module, Func, hli, Option.isSome_some]

/-- Witness for C10 at a slash-free and a slashed mountpoint. -/
theorem claimC10_witness :
    ('/' ∉ str "counter") ∧
    (Func intT intT (str "counter")).Module = none ∧
    (Func intT intT (str "counter")).name = str "counter" ∧
    ('/' ∈ str "/counter/inc") ∧
    ((Func intT intT (str "/counter/inc")).Module).isSome = true := by
  refine ⟨by decide, ((claimC10 intT intT (str "counter")).2.1 (by decide)).1,
    ((claimC10 intT intT (str "counter")).2.1 (by decide)).2, by decide,
    (claimC10 intT intT (str "/counter/inc")).2.2.1 (by decide)⟩
